import Mathlib

/-!
Verification of the indexed priority-queue family in `src/hashqueue.h`
(`data_structures::LazyQueue` and `data_structures::EagerQueue`).

Modelling conventions, stated once:

* The C++ `double time` key is modelled as `ℚ`: the spec treats time purely as
  an ordered key (NaN and other floating-point artefacts are out of scope).
* The heap's backing `std::vector` of owning pointers is modelled as a `List`
  of entry values; a pointer dereference through the identity index `_m`
  becomes a search for the (unique, by invariant I3/I4) entry carrying that ID.
* `_m` (the `std::unordered_map` identity index) is unordered, so it is
  modelled as its key list up to permutation.
* Failed `assert(...)` statements and thrown `std::runtime_error`s are both
  modelled as `Except.error` outcomes; an out-of-bounds vector access
  (undefined behaviour in C++) is modelled as the distinguished error
  `Err.oob`, never as a defined result.
* `std::push_heap` / `std::pop_heap` are modelled by their textbook semantics
  (sift the last element up; swap root to the back and sift the new root
  down).  The C++ standard fixes only the heap property, so the order among
  equal keys is implementation defined; every theorem that depends on the
  order of equal keys is stated for the hand-written `EagerQueue` code, which
  is fully deterministic.

The generic heap core below is parameterised by the time projection `tm` and
a reindexing hook `ri`: for the lazy queue `ri` is the identity (plain
pointer swaps), for the eager queue `ri e i` stores `i` into the entry's
cached `loc` field, exactly as the C++ updates `->loc` after every swap.
-/

set_option linter.unusedSectionVars false

namespace HashQueue

/-- Error outcomes of queue operations.  `emptyQueue` models
`throw std::runtime_error("Empty Queue")`, `duplicateKey` and `notFound`
model the `assert` guards on `push` and on `remove`/`reschedule`, and `oob`
marks an out-of-bounds backing-array access (undefined behaviour in C++). -/
inductive Err : Type
  | emptyQueue
  | duplicateKey
  | notFound
  | oob
  deriving DecidableEq, Repr

section HeapCore

variable {α : Type} (tm : α → ℚ) (ri : α → ℕ → α)

/-- Time key stored at position `i` of the backing array (`_data[i]->time`);
out-of-range positions read as `0` but every use is bounds-guarded. -/
def timeAt (l : List α) (i : ℕ) : ℚ :=
  match l[i]? with
  | some e => tm e
  | none => 0

/-- Swap of two heap slots: `std::swap(_data[i], _data[j])` followed by the
reindexing writes (`->loc = ...` in the eager queue, a no-op in the lazy
queue). -/
def hswap (l : List α) (i j : ℕ) : List α :=
  match l[i]?, l[j]? with
  | some a, some b => (l.set i (ri b i)).set j (ri a j)
  | _, _ => l

/-- Heap order for an abstract assignment `f` of times to the positions
`0, ..., n-1`: every non-root position is at least its parent. -/
def hOrdF (f : ℕ → ℚ) (n : ℕ) : Prop :=
  ∀ i, i < n → 1 ≤ i → f ((i - 1) / 2) ≤ f i

instance (f : ℕ → ℚ) (n : ℕ) : Decidable (hOrdF f n) := by
  unfold hOrdF; infer_instance

/-- Invariant I1 (heap order): every non-root position is at least its
parent, comparing by time. -/
def hOrd (l : List α) : Prop :=
  hOrdF (timeAt tm l) l.length

instance (l : List α) : Decidable (hOrd tm l) := by
  unfold hOrd; infer_instance

/-- Running minimum of `EagerQueue::perc_down` after testing the left child:
the left child if it is in range and strictly beats the current slot. -/
def downStep1 (l : List α) (idx : ℕ) : ℕ :=
  if 2 * idx + 1 < l.length ∧ timeAt tm l (2 * idx + 1) < timeAt tm l idx
    then 2 * idx + 1 else idx

/-- Index selected by one round of `EagerQueue::perc_down`: the smaller-time
child if it beats the current slot (left child tested first, then the right
child against the running minimum), otherwise the slot itself. -/
def downStep (l : List α) (idx : ℕ) : ℕ :=
  if 2 * idx + 2 < l.length ∧ timeAt tm l (2 * idx + 2) < timeAt tm l (downStep1 tm l idx)
    then 2 * idx + 2 else downStep1 tm l idx

/-- Fuelled sift-down (`EagerQueue::perc_down`, also the textbook model of the
sift-down inside `std::pop_heap`).  The recursion index strictly increases,
so fuel `l.length` is always enough. -/
def percDownAux : ℕ → List α → ℕ → List α
  | 0, l, _ => l
  | fuel + 1, l, idx =>
    let m := downStep tm l idx
    if m = idx then l else percDownAux fuel (hswap ri l idx m) m

/-- Sift-down from `idx` with full fuel. -/
def percDown (l : List α) (idx : ℕ) : List α :=
  percDownAux tm ri l.length l idx

/-- Fuelled sift-up (`EagerQueue::perc_up`, also the textbook model of
`std::push_heap`).  The index strictly decreases, so fuel `idx` is enough. -/
def percUpAux : ℕ → List α → ℕ → List α
  | 0, l, _ => l
  | fuel + 1, l, idx =>
    if idx = 0 then l
    else if timeAt tm l idx < timeAt tm l ((idx - 1) / 2) then
      percUpAux fuel (hswap ri l idx ((idx - 1) / 2)) ((idx - 1) / 2)
    else l

/-- Sift-up from `idx` with full fuel. -/
def percUp (l : List α) (idx : ℕ) : List α :=
  percUpAux tm ri idx l idx

/-- `EagerQueue::fix`: sift down from `idx`; if no sift-down happened (the
returned flag of `perc_down` is the top-level comparison only), sift up
instead. -/
def hfix (l : List α) (idx : ℕ) : List α :=
  if downStep tm l idx = idx then percUp tm ri l idx else percDown tm ri l idx

/-- Append a new entry at the back and sift it up: the heap part of `push`
(`_data.push_back(entry); perc_up(_data.size()-1)`, resp. `std::push_heap`).
The caller builds the entry (for the eager queue, with `loc = l.length`). -/
def heapPush (l : List α) (e : α) : List α :=
  percUp tm ri (l ++ [e]) l.length

/-- Remainder of the backing array after removing the root: move the last
entry into slot 0, shrink by one, reindex slot 0, sift the new root down.
This is `std::pop_heap` followed by `pop_back` (lazy), and the corresponding
inline sequence in `EagerQueue::pop` (eager); the reindexing write to slot 0
is performed only when the shrunk array is non-empty (see `EagerQueue.popRaw`
for the literal unguarded write). -/
def heapPopRest (l : List α) : List α :=
  match l with
  | [] => []
  | [_] => []
  | _ :: b :: t =>
    percDown tm ri (ri ((b :: t).getLast (List.cons_ne_nil b t)) 0 :: (b :: t).dropLast) 0

theorem length_hswap (l : List α) (i j : ℕ) : (hswap ri l i j).length = l.length := by
  unfold hswap
  cases hi : l[i]? <;> cases hj : l[j]? <;> simp

theorem length_percDownAux (fuel : ℕ) (l : List α) (idx : ℕ) :
    (percDownAux tm ri fuel l idx).length = l.length := by
  induction fuel generalizing l idx with
  | zero => rfl
  | succ n ih =>
    unfold percDownAux
    by_cases h : downStep tm l idx = idx
    · simp [h]
    · rw [if_neg h, ih, length_hswap]

theorem length_percUpAux (fuel : ℕ) (l : List α) (idx : ℕ) :
    (percUpAux tm ri fuel l idx).length = l.length := by
  induction fuel generalizing l idx with
  | zero => rfl
  | succ n ih =>
    unfold percUpAux
    by_cases h0 : idx = 0
    · simp [h0]
    · by_cases hlt : timeAt tm l idx < timeAt tm l ((idx - 1) / 2)
      · rw [if_neg h0, if_pos hlt, ih, length_hswap]
      · simp [h0, hlt]

theorem length_percDown (l : List α) (idx : ℕ) :
    (percDown tm ri l idx).length = l.length := length_percDownAux ..

theorem length_percUp (l : List α) (idx : ℕ) :
    (percUp tm ri l idx).length = l.length := length_percUpAux ..

theorem length_hfix (l : List α) (idx : ℕ) : (hfix tm ri l idx).length = l.length := by
  unfold hfix
  by_cases h : downStep tm l idx = idx <;> simp [h, length_percUp, length_percDown]

theorem length_heapPush (l : List α) (e : α) :
    (heapPush tm ri l e).length = l.length + 1 := by
  unfold heapPush
  rw [length_percUp]; simp

theorem length_heapPopRest (l : List α) :
    (heapPopRest tm ri l).length = l.length - 1 := by
  match l with
  | [] => rfl
  | [a] => rfl
  | a :: b :: t => simp [heapPopRest, length_percDown]

end HeapCore

section ListFacts

variable {β : Type}

theorem set_self_of_getElem? (l : List β) (i : ℕ) (x : β) (hx : l[i]? = some x) :
    l.set i x = l := by
  obtain ⟨h, rfl⟩ := List.getElem?_eq_some_iff.mp hx
  apply List.ext_getElem?
  intro n
  simp only [List.getElem?_set]
  split
  · next heq => subst heq; simp [List.getElem?_eq_getElem h]
  · rfl

theorem get_cons_set_perm (t : List β) (m : ℕ) (c x : β) (hx : t[m]? = some x) :
    (x :: t.set m c).Perm (c :: t) := by
  induction t generalizing m with
  | nil => simp at hx
  | cons a t ih =>
    cases m with
    | zero =>
      simp only [List.getElem?_cons_zero, Option.some.injEq] at hx
      subst hx
      exact List.Perm.swap ..
    | succ m =>
      simp only [List.getElem?_cons_succ] at hx
      have h1 := ih m hx
      have h2 : (x :: (a :: t).set (m + 1) c) = x :: a :: t.set m c := by simp
      rw [h2]
      exact ((List.Perm.swap a x _).trans (List.Perm.cons a h1)).trans (List.Perm.swap c a t)

theorem set_set_perm (l : List β) (i j : ℕ) (x y : β)
    (hx : l[i]? = some x) (hy : l[j]? = some y) :
    ((l.set i y).set j x).Perm l := by
  induction l generalizing i j with
  | nil => simp at hx
  | cons a t ih =>
    cases i with
    | zero =>
      simp only [List.getElem?_cons_zero, Option.some.injEq] at hx
      subst hx
      cases j with
      | zero => simp
      | succ j =>
        simp only [List.getElem?_cons_succ] at hy
        simpa using get_cons_set_perm t j a y hy
    | succ i =>
      simp only [List.getElem?_cons_succ] at hx
      cases j with
      | zero =>
        simp only [List.getElem?_cons_zero, Option.some.injEq] at hy
        subst hy
        simpa using get_cons_set_perm t i a x hx
      | succ j =>
        simp only [List.getElem?_cons_succ] at hy
        simpa using List.Perm.cons a (ih i j hx hy)

theorem getLast_cons_dropLast_perm (l : List β) (z : β) (hz : l.getLast? = some z) :
    (z :: l.dropLast).Perm l := by
  have hne : l ≠ [] := by
    intro h; subst h; simp at hz
  have hz' : z = l.getLast hne := by
    rw [List.getLast?_eq_getLast l hne] at hz
    exact (Option.some_inj.mp hz).symm
  subst hz'
  have h1 : l.dropLast ++ [l.getLast hne] = l := List.dropLast_append_getLast hne
  have h2 : (([l.getLast hne] ++ l.dropLast)).Perm (l.dropLast ++ [l.getLast hne]) :=
    List.perm_append_comm
  rw [h1] at h2
  simpa using h2

theorem cons_set_getLast_dropLast_perm (l : List β) (x z : β)
    (hx : l[0]? = some x) (hz : l.getLast? = some z) :
    (x :: (l.set 0 z).dropLast).Perm l := by
  cases l with
  | nil => simp at hx
  | cons a t =>
    simp only [List.getElem?_cons_zero, Option.some.injEq] at hx
    subst hx
    cases t with
    | nil =>
      simp only [List.getLast?_singleton, Option.some.injEq] at hz
      subst hz
      simp
    | cons b t =>
      have hz' : (b :: t).getLast? = some z := by
        rw [← hz]; rfl
      have : ((a :: b :: t).set 0 z).dropLast = z :: (b :: t).dropLast := by
        simp [List.dropLast]
      rw [this]
      exact List.Perm.cons a (getLast_cons_dropLast_perm (b :: t) z hz')

end ListFacts

section HeapPerm

variable {α β : Type} (tm : α → ℚ) (ri : α → ℕ → α) (pj : α → β)

theorem getElem?_hswap (l : List α) (i j k : ℕ) (hi : i < l.length) (hj : j < l.length) :
    (hswap ri l i j)[k]? =
      if k = j then some (ri (l.get ⟨i, hi⟩) j)
      else if k = i then some (ri (l.get ⟨j, hj⟩) i)
      else l[k]? := by
  unfold hswap
  rw [List.getElem?_eq_getElem hi, List.getElem?_eq_getElem hj]
  simp only [List.getElem?_set, List.length_set, List.get_eq_getElem]
  by_cases hkj : k = j
  · subst hkj; simp [hj]
  · by_cases hki : k = i
    · subst hki; simp [hkj, hi, Ne.symm hkj]
    · simp [Ne.symm hki, Ne.symm hkj, hki, hkj]

theorem hswap_eq_of_oob (l : List α) (i j : ℕ) (h : l.length ≤ i ∨ l.length ≤ j) :
    hswap ri l i j = l := by
  unfold hswap
  rcases h with h | h
  · rw [List.getElem?_eq_none h]
  · rw [List.getElem?_eq_none h]
    cases l[i]? <;> rfl

theorem timeAt_hswap (htm : ∀ e k, tm (ri e k) = tm e) (l : List α) (i j k : ℕ)
    (hi : i < l.length) (hj : j < l.length) :
    timeAt tm (hswap ri l i j) k =
      if k = j then timeAt tm l i else if k = i then timeAt tm l j else timeAt tm l k := by
  unfold timeAt
  rw [getElem?_hswap ri l i j k hi hj]
  by_cases hkj : k = j
  · subst hkj
    simp [htm, List.getElem?_eq_getElem hi]
  · by_cases hki : k = i
    · subst hki
      simp [hkj, htm, List.getElem?_eq_getElem hj]
    · simp [hki, hkj]

theorem hswap_map_perm (hpj : ∀ e k, pj (ri e k) = pj e) (l : List α) (i j : ℕ) :
    ((hswap ri l i j).map pj).Perm (l.map pj) := by
  unfold hswap
  cases hi : l[i]? with
  | none => exact List.Perm.refl _
  | some a =>
    cases hj : l[j]? with
    | none => exact List.Perm.refl _
    | some b =>
      rw [List.map_set, List.map_set, hpj, hpj]
      refine set_set_perm (l.map pj) i j (pj a) (pj b) ?_ ?_
      · simp [List.getElem?_map, hi]
      · simp [List.getElem?_map, hj]

theorem percDownAux_map_perm (hpj : ∀ e k, pj (ri e k) = pj e)
    (fuel : ℕ) (l : List α) (idx : ℕ) :
    ((percDownAux tm ri fuel l idx).map pj).Perm (l.map pj) := by
  induction fuel generalizing l idx with
  | zero => exact List.Perm.refl _
  | succ n ih =>
    unfold percDownAux
    by_cases h : downStep tm l idx = idx
    · simp only [h, if_pos rfl]
      exact List.Perm.refl _
    · rw [if_neg h]
      exact (ih ..).trans (hswap_map_perm ri pj hpj ..)

theorem percUpAux_map_perm (hpj : ∀ e k, pj (ri e k) = pj e)
    (fuel : ℕ) (l : List α) (idx : ℕ) :
    ((percUpAux tm ri fuel l idx).map pj).Perm (l.map pj) := by
  induction fuel generalizing l idx with
  | zero => exact List.Perm.refl _
  | succ n ih =>
    unfold percUpAux
    by_cases h0 : idx = 0
    · simp only [h0, if_pos rfl]
      exact List.Perm.refl _
    · rw [if_neg h0]
      by_cases hlt : timeAt tm l idx < timeAt tm l ((idx - 1) / 2)
      · rw [if_pos hlt]
        exact (ih ..).trans (hswap_map_perm ri pj hpj ..)
      · rw [if_neg hlt]

theorem heapPush_map_perm (hpj : ∀ e k, pj (ri e k) = pj e) (l : List α) (e : α) :
    ((heapPush tm ri l e).map pj).Perm (l.map pj ++ [pj e]) := by
  unfold heapPush percUp
  exact (percUpAux_map_perm tm ri pj hpj ..).trans (by rw [List.map_append]; rfl)

theorem heapPopRest_map_perm (hpj : ∀ e k, pj (ri e k) = pj e) (l : List α)
    (x : α) (hx : l[0]? = some x) :
    (pj x :: (heapPopRest tm ri l).map pj).Perm (l.map pj) := by
  match l with
  | [] => simp at hx
  | [a] =>
    have hx' : a = x := by simpa using hx
    subst hx'
    simp [heapPopRest]
  | a :: b :: t =>
    have hx' : a = x := by simpa using hx
    subst hx'
    have hgl : (b :: t).getLast? = some ((b :: t).getLast (List.cons_ne_nil b t)) :=
      List.getLast?_eq_getLast ..
    have h1 := percDownAux_map_perm tm ri pj hpj
      (ri ((b :: t).getLast (List.cons_ne_nil b t)) 0 :: (b :: t).dropLast).length
      (ri ((b :: t).getLast (List.cons_ne_nil b t)) 0 :: (b :: t).dropLast) 0
    have he : List.map pj (ri ((b :: t).getLast (List.cons_ne_nil b t)) 0 :: (b :: t).dropLast)
        = List.map pj (((b :: t).getLast (List.cons_ne_nil b t)) :: (b :: t).dropLast) := by
      simp [hpj]
    rw [he] at h1
    have h2 := List.Perm.map pj
      (getLast_cons_dropLast_perm (b :: t) ((b :: t).getLast (List.cons_ne_nil b t)) hgl)
    have h3 := List.Perm.cons (pj a) (h1.trans h2)
    simpa [heapPopRest, percDown] using h3

end HeapPerm

section IndexFacts

theorem parent_lt {i : ℕ} (h : 1 ≤ i) : (i - 1) / 2 < i := by omega

theorem child_cases {c k : ℕ} (h1 : 1 ≤ c) (h : (c - 1) / 2 = k) :
    c = 2 * k + 1 ∨ c = 2 * k + 2 := by omega

theorem parent_child_left (k : ℕ) : (2 * k + 1 - 1) / 2 = k := by omega

theorem parent_child_right (k : ℕ) : (2 * k + 2 - 1) / 2 = k := by omega

end IndexFacts

section HeapOrder

variable {α : Type} (tm : α → ℚ) (ri : α → ℕ → α)

/-- Heap order at every parent-child pair except the pair above `k`, plus the
bridge condition that the parent of `k` already bounds the children of `k`:
the precondition under which sift-up from `k` restores full heap order. -/
def almostUp (l : List α) (k : ℕ) : Prop :=
  (∀ i, i < l.length → 1 ≤ i → i ≠ k →
    timeAt tm l ((i - 1) / 2) ≤ timeAt tm l i) ∧
  (∀ c, c < l.length → 1 ≤ c → (c - 1) / 2 = k → 1 ≤ k →
    timeAt tm l ((k - 1) / 2) ≤ timeAt tm l c)

/-- Heap order at every parent-child pair except the pairs below `k`, plus
the bridge condition that the parent of `k` already bounds the children of
`k`: the precondition under which sift-down from `k` restores heap order. -/
def almostDown (l : List α) (k : ℕ) : Prop :=
  (∀ i, i < l.length → 1 ≤ i → (i - 1) / 2 ≠ k →
    timeAt tm l ((i - 1) / 2) ≤ timeAt tm l i) ∧
  (∀ c, c < l.length → 1 ≤ c → (c - 1) / 2 = k → 1 ≤ k →
    timeAt tm l ((k - 1) / 2) ≤ timeAt tm l c)

theorem hOrd_root_min (l : List α) (h : hOrd tm l) :
    ∀ i, i < l.length → timeAt tm l 0 ≤ timeAt tm l i := by
  intro i
  induction i using Nat.strong_induction_on with
  | _ i ih =>
    intro hi
    rcases Nat.eq_zero_or_pos i with h0 | h1
    · subst h0; exact le_refl _
    · exact le_trans (ih ((i - 1) / 2) (parent_lt h1) (lt_trans (parent_lt h1) hi))
        (h i hi h1)

theorem percUpAux_restore (htm : ∀ e k, tm (ri e k) = tm e) (fuel : ℕ) :
    ∀ (l : List α) (k : ℕ), k ≤ fuel → k < l.length → almostUp tm l k →
      hOrd tm (percUpAux tm ri fuel l k) := by
  induction fuel with
  | zero =>
    intro l k hf hk h
    have hk0 : k = 0 := Nat.le_zero.mp hf
    subst hk0
    intro i hi h1
    exact h.1 i hi h1 (by omega)
  | succ n ih =>
    intro l k hf hk h
    unfold percUpAux
    by_cases hk0 : k = 0
    · subst hk0
      rw [if_pos rfl]
      intro i hi h1
      exact h.1 i hi h1 (by omega)
    · rw [if_neg hk0]
      by_cases hlt : timeAt tm l k < timeAt tm l ((k - 1) / 2)
      · rw [if_pos hlt]
        have hk1 : 1 ≤ k := by omega
        have hpk : (k - 1) / 2 < k := parent_lt hk1
        have hplen : (k - 1) / 2 < l.length := lt_trans hpk hk
        have hts := timeAt_hswap tm ri htm l k ((k - 1) / 2)
        apply ih (hswap ri l k ((k - 1) / 2)) ((k - 1) / 2) (by omega)
          (by rw [length_hswap]; exact hplen)
        constructor
        · intro i hi h1 hip
          rw [length_hswap] at hi
          rw [hts i hk hplen, hts ((i - 1) / 2) hk hplen]
          by_cases hik : i = k
          · subst hik
            rw [if_pos rfl, if_neg hip, if_pos rfl]
            exact le_of_lt hlt
          · rw [if_neg hip, if_neg hik]
            by_cases hA : (i - 1) / 2 = (k - 1) / 2
            · rw [if_pos hA]
              have h1' := h.1 i hi h1 hik
              rw [hA] at h1'
              exact le_trans (le_of_lt hlt) h1'
            · rw [if_neg hA]
              by_cases hD : (i - 1) / 2 = k
              · rw [if_pos hD]
                exact h.2 i hi h1 hD hk1
              · rw [if_neg hD]
                exact h.1 i hi h1 hik
        · intro c hc h1c hpc hp1
          rw [length_hswap] at hc
          have hgp : ((k - 1) / 2 - 1) / 2 < (k - 1) / 2 := parent_lt hp1
          rw [hts c hk hplen, hts (((k - 1) / 2 - 1) / 2) hk hplen]
          have hgp_ne_p : ((k - 1) / 2 - 1) / 2 ≠ (k - 1) / 2 := by omega
          have hgp_ne_k : ((k - 1) / 2 - 1) / 2 ≠ k := by omega
          rw [if_neg hgp_ne_p, if_neg hgp_ne_k]
          have hcp : (k - 1) / 2 < c := by
            rcases child_cases h1c hpc with hcc | hcc <;> omega
          rw [if_neg (by omega : ¬ c = (k - 1) / 2)]
          by_cases hck : c = k
          · rw [if_pos hck]
            exact h.1 ((k - 1) / 2) hplen hp1 (by omega)
          · rw [if_neg hck]
            have h1' := h.1 c hc h1c hck
            rw [hpc] at h1'
            exact le_trans (h.1 ((k - 1) / 2) hplen hp1 (by omega)) h1'
      · rw [if_neg hlt]
        intro i hi h1
        by_cases hik : i = k
        · subst hik
          exact not_lt.mp hlt
        · exact h.1 i hi h1 hik

theorem downStep_self (l : List α) (k : ℕ) (h : downStep tm l k = k) :
    ∀ c, c < l.length → (c = 2 * k + 1 ∨ c = 2 * k + 2) →
      timeAt tm l k ≤ timeAt tm l c := by
  unfold downStep downStep1 at h
  intro c hc hcc
  by_cases c1 : 2 * k + 1 < l.length ∧ timeAt tm l (2 * k + 1) < timeAt tm l k
  · rw [if_pos c1] at h
    split_ifs at h <;> omega
  · rw [if_neg c1] at h
    by_cases c2 : 2 * k + 2 < l.length ∧ timeAt tm l (2 * k + 2) < timeAt tm l k
    · rw [if_pos c2] at h
      omega
    · push_neg at c1 c2
      rcases hcc with rfl | rfl
      · exact c1 hc
      · exact c2 hc

theorem downStep_ne (l : List α) (k : ℕ) (h : downStep tm l k ≠ k) :
    (downStep tm l k = 2 * k + 1 ∨ downStep tm l k = 2 * k + 2) ∧
    downStep tm l k < l.length ∧
    timeAt tm l (downStep tm l k) < timeAt tm l k ∧
    (∀ c, c < l.length → (c = 2 * k + 1 ∨ c = 2 * k + 2) →
      timeAt tm l (downStep tm l k) ≤ timeAt tm l c) := by
  unfold downStep downStep1 at h ⊢
  by_cases c1 : 2 * k + 1 < l.length ∧ timeAt tm l (2 * k + 1) < timeAt tm l k
  · rw [if_pos c1]
    by_cases c2 : 2 * k + 2 < l.length ∧ timeAt tm l (2 * k + 2) < timeAt tm l (2 * k + 1)
    · rw [if_pos c2]
      refine ⟨Or.inr rfl, c2.1, lt_trans c2.2 c1.2, ?_⟩
      intro c hc hcc
      rcases hcc with rfl | rfl
      · exact le_of_lt c2.2
      · exact le_refl _
    · rw [if_neg c2]
      push_neg at c2
      refine ⟨Or.inl rfl, c1.1, c1.2, ?_⟩
      intro c hc hcc
      rcases hcc with rfl | rfl
      · exact le_refl _
      · exact c2 hc
  · rw [if_neg c1]
    by_cases c2 : 2 * k + 2 < l.length ∧ timeAt tm l (2 * k + 2) < timeAt tm l k
    · rw [if_pos c2]
      push_neg at c1
      refine ⟨Or.inr rfl, c2.1, c2.2, ?_⟩
      intro c hc hcc
      rcases hcc with rfl | rfl
      · exact le_trans (le_of_lt c2.2) (c1 hc)
      · exact le_refl _
    · rw [if_neg c1, if_neg c2] at h
      exact absurd rfl h

theorem percDownAux_restore (htm : ∀ e k, tm (ri e k) = tm e) (fuel : ℕ) :
    ∀ (l : List α) (k : ℕ), l.length ≤ fuel + k → almostDown tm l k →
      hOrd tm (percDownAux tm ri fuel l k) := by
  induction fuel with
  | zero =>
    intro l k hf h
    intro i hi h1
    have hi' : i < l.length := hi
    exact h.1 i hi' h1 (by omega)
  | succ n ih =>
    intro l k hf h
    unfold percDownAux
    by_cases hds : downStep tm l k = k
    · rw [if_pos hds]
      intro i hi h1
      have hi' : i < l.length := hi
      by_cases hpk : (i - 1) / 2 = k
      · have := downStep_self tm l k hds i hi' (child_cases h1 hpk)
        rw [hpk]
        exact this
      · exact h.1 i hi' h1 hpk
    · rw [if_neg hds]
      obtain ⟨hm12, hmlen, hmlt, hmin⟩ := downStep_ne tm l k hds
      have hkm : k < downStep tm l k := by rcases hm12 with h' | h' <;> omega
      have hklen : k < l.length := lt_trans hkm hmlen
      have hts : ∀ x, timeAt tm (hswap ri l k (downStep tm l k)) x =
          if x = downStep tm l k then timeAt tm l k
          else if x = k then timeAt tm l (downStep tm l k)
          else timeAt tm l x :=
        fun x => timeAt_hswap tm ri htm l k (downStep tm l k) x hklen hmlen
      have hpmk : (downStep tm l k - 1) / 2 = k := by
        rcases hm12 with h' | h' <;> omega
      apply ih (hswap ri l k (downStep tm l k)) (downStep tm l k)
        (by rw [length_hswap]; omega)
      constructor
      · intro i hi h1 hpm
        rw [length_hswap] at hi
        rw [hts i, hts ((i - 1) / 2)]
        by_cases hik : i = k
        · subst hik
          rw [if_neg (by omega : ¬ (i - 1) / 2 = downStep tm l i),
            if_neg (by omega : ¬ (i - 1) / 2 = i),
            if_neg (by omega : ¬ i = downStep tm l i), if_pos rfl]
          exact h.2 (downStep tm l i) hmlen (by omega) hpmk h1
        · by_cases him : i = downStep tm l k
          · rw [if_pos him, him, hpmk]
            rw [if_neg (by omega : ¬ k = downStep tm l k), if_pos rfl]
            exact le_of_lt hmlt
          · rw [if_neg him, if_neg hik]
            by_cases hpik : (i - 1) / 2 = k
            · rw [hpik, if_neg (by omega : ¬ k = downStep tm l k), if_pos rfl]
              exact hmin i hi (child_cases h1 hpik)
            · rw [if_neg hpm, if_neg hpik]
              exact h.1 i hi h1 hpik
      · intro c hc h1c hpc hm1
        rw [length_hswap] at hc
        rw [hts c, hts ((downStep tm l k - 1) / 2)]
        rw [hpmk, if_neg (by omega : ¬ k = downStep tm l k), if_pos rfl]
        have hcm : downStep tm l k < c := by
          rcases child_cases h1c hpc with h' | h' <;> omega
        rw [if_neg (by omega : ¬ c = downStep tm l k), if_neg (by omega : ¬ c = k)]
        have h1' := h.1 c hc h1c (by omega)
        rw [hpc] at h1'
        exact h1'

theorem downStep_self_of (l : List α) (k : ℕ)
    (h : ∀ c, c < l.length → (c = 2 * k + 1 ∨ c = 2 * k + 2) →
      ¬ timeAt tm l c < timeAt tm l k) :
    downStep tm l k = k := by
  have hX : ¬ (2 * k + 1 < l.length ∧ timeAt tm l (2 * k + 1) < timeAt tm l k) := by
    intro c1
    exact absurd c1.2 (h _ c1.1 (Or.inl rfl))
  have h1 : downStep1 tm l k = k := by
    unfold downStep1
    rw [if_neg hX]
  unfold downStep
  rw [h1, if_neg]
  intro c2
  exact absurd c2.2 (h _ c2.1 (Or.inr rfl))

theorem percUpAux_of_hOrd (fuel : ℕ) (l : List α) (k : ℕ) (hk : k < l.length)
    (h : hOrd tm l) : percUpAux tm ri fuel l k = l := by
  cases fuel with
  | zero => rfl
  | succ n =>
    unfold percUpAux
    by_cases hk0 : k = 0
    · rw [if_pos hk0]
    · rw [if_neg hk0, if_neg (not_lt.mpr (h k hk (by omega)))]

/-- Correctness of `EagerQueue::fix`: if some single time change at slot
`idx` is the only thing standing between the array and full heap order (there
is an alternative time for that slot under which the array is heap ordered),
then sift-down-else-sift-up restores heap order. -/
theorem hfix_restore (htm : ∀ e k, tm (ri e k) = tm e) (l : List α) (idx : ℕ)
    (hidx : idx < l.length)
    (h : ∃ t0, hOrdF (fun j => if j = idx then t0 else timeAt tm l j) l.length) :
    hOrd tm (hfix tm ri l idx) := by
  obtain ⟨t0, h0⟩ := h
  by_cases hle : timeAt tm l idx ≤ t0
  · -- the time at idx decreased (or stayed): children are still dominated,
    -- so perc_down reports no move and perc_up runs
    have hds : downStep tm l idx = idx := by
      apply downStep_self_of
      intro c hc hcc
      have h1c : 1 ≤ c := by omega
      have hcne : ¬ c = idx := by omega
      have hpc : (c - 1) / 2 = idx := by omega
      have hbc := h0 c hc h1c
      dsimp only at hbc
      rw [if_neg hcne, hpc, if_pos rfl] at hbc
      exact not_lt.mpr (le_trans hle hbc)
    unfold hfix
    rw [if_pos hds]
    apply percUpAux_restore tm ri htm idx l idx (le_refl _) hidx
    constructor
    · intro i hi h1 hik
      by_cases hpi : (i - 1) / 2 = idx
      · have hbc := h0 i hi h1
        dsimp only at hbc
        rw [if_neg hik, hpi, if_pos rfl] at hbc
        rw [hpi]
        exact le_trans hle hbc
      · have hbc := h0 i hi h1
        dsimp only at hbc
        rw [if_neg hik, if_neg hpi] at hbc
        exact hbc
    · intro c hc h1c hpc hk1
      have hcne : ¬ c = idx := by
        rcases child_cases h1c hpc with rfl | rfl <;> omega
      have hpne : ¬ (idx - 1) / 2 = idx := by omega
      have hb1 := h0 idx hidx hk1
      dsimp only at hb1
      rw [if_pos rfl, if_neg hpne] at hb1
      have hb2 := h0 c hc h1c
      dsimp only at hb2
      rw [if_neg hcne, hpc, if_pos rfl] at hb2
      exact le_trans hb1 hb2
  · push_neg at hle
    by_cases hds : downStep tm l idx = idx
    · -- the time increased but no child beats it: the array is already a heap
      have hord : hOrd tm l := by
        intro i hi h1
        by_cases hii : i = idx
        · subst hii
          have hpne : ¬ (i - 1) / 2 = i := by omega
          have hb1 := h0 i hi h1
          dsimp only at hb1
          rw [if_pos rfl, if_neg hpne] at hb1
          exact le_of_lt (lt_of_le_of_lt hb1 hle)
        · by_cases hpi : (i - 1) / 2 = idx
          · rw [hpi]
            exact downStep_self tm l idx hds i hi (child_cases h1 hpi)
          · have hbc := h0 i hi h1
            dsimp only at hbc
            rw [if_neg hii, if_neg hpi] at hbc
            exact hbc
      unfold hfix
      rw [if_pos hds]
      unfold percUp
      rw [percUpAux_of_hOrd tm ri idx l idx hidx hord]
      exact hord
    · unfold hfix
      rw [if_neg hds]
      apply percDownAux_restore tm ri htm l.length l idx (by omega)
      constructor
      · intro i hi h1 hpi
        by_cases hii : i = idx
        · subst hii
          have hpne : ¬ (i - 1) / 2 = i := by omega
          have hb1 := h0 i hi h1
          dsimp only at hb1
          rw [if_pos rfl, if_neg hpne] at hb1
          exact le_of_lt (lt_of_le_of_lt hb1 hle)
        · have hbc := h0 i hi h1
          dsimp only at hbc
          rw [if_neg hii, if_neg hpi] at hbc
          exact hbc
      · intro c hc h1c hpc hk1
        have hcne : ¬ c = idx := by
          rcases child_cases h1c hpc with rfl | rfl <;> omega
        have hpne : ¬ (idx - 1) / 2 = idx := by omega
        have hb1 := h0 idx hidx hk1
        dsimp only at hb1
        rw [if_pos rfl, if_neg hpne] at hb1
        have hb2 := h0 c hc h1c
        dsimp only at hb2
        rw [if_neg hcne, hpc, if_pos rfl] at hb2
        exact le_trans hb1 hb2

theorem hOrd_nil : hOrd tm ([] : List α) := by
  intro i hi h1
  simp at hi

theorem timeAt_append_lt (l l2 : List α) (j : ℕ) (hj : j < l.length) :
    timeAt tm (l ++ l2) j = timeAt tm l j := by
  unfold timeAt
  rw [List.getElem?_append, if_pos hj]

theorem timeAt_dropLast (l : List α) (j : ℕ) (hj : j < l.length - 1) :
    timeAt tm l.dropLast j = timeAt tm l j := by
  unfold timeAt
  rw [List.dropLast_eq_take, List.getElem?_take, if_pos hj]

theorem timeAt_set (l : List α) (j : ℕ) (e : α) (hj : j < l.length) (x : ℕ) :
    timeAt tm (l.set j e) x = if x = j then tm e else timeAt tm l x := by
  unfold timeAt
  rw [List.getElem?_set]
  by_cases hxj : x = j
  · subst hxj
    rw [if_pos rfl, if_pos rfl, if_pos hj]
  · rw [if_neg (Ne.symm hxj), if_neg hxj]

theorem hOrd_dropLast (l : List α) (h : hOrd tm l) : hOrd tm l.dropLast := by
  intro i hi h1
  rw [List.length_dropLast] at hi
  rw [timeAt_dropLast tm l i hi, timeAt_dropLast tm l ((i - 1) / 2) (by omega)]
  exact h i (by omega) h1

theorem hOrd_heapPush (htm : ∀ e k, tm (ri e k) = tm e) (l : List α) (e : α)
    (h : hOrd tm l) : hOrd tm (heapPush tm ri l e) := by
  unfold heapPush percUp
  apply percUpAux_restore tm ri htm l.length (l ++ [e]) l.length (le_refl _) (by simp)
  constructor
  · intro i hi h1 hik
    rw [List.length_append, List.length_singleton] at hi
    have hi' : i < l.length := by omega
    have hp' : (i - 1) / 2 < l.length := lt_trans (parent_lt h1) hi'
    rw [timeAt_append_lt tm l [e] i hi', timeAt_append_lt tm l [e] ((i - 1) / 2) hp']
    exact h i hi' h1
  · intro c hc h1c hpc hk1
    exfalso
    rw [List.length_append, List.length_singleton] at hc
    rcases child_cases h1c hpc with rfl | rfl <;> omega

theorem timeAt_popM (a b g : α) (t : List α) (j : ℕ) (h1 : 1 ≤ j)
    (hj : j < t.length + 1) :
    timeAt tm (g :: (b :: t).dropLast) j = timeAt tm (a :: b :: t) j := by
  cases j with
  | zero => omega
  | succ j =>
    unfold timeAt
    simp only [List.getElem?_cons_succ]
    rw [List.dropLast_eq_take, List.getElem?_take, if_pos (by simp; omega)]

theorem hOrd_heapPopRest (htm : ∀ e k, tm (ri e k) = tm e) (l : List α)
    (h : hOrd tm l) : hOrd tm (heapPopRest tm ri l) := by
  match l with
  | [] => exact hOrd_nil tm
  | [a] => exact hOrd_nil tm
  | a :: b :: t =>
    show hOrd tm (percDown tm ri
      (ri ((b :: t).getLast (List.cons_ne_nil b t)) 0 :: (b :: t).dropLast) 0)
    unfold percDown
    apply percDownAux_restore tm ri htm _ _ 0 (by omega)
    constructor
    · intro i hi h1 hpi
      have hpar1 : 1 ≤ (i - 1) / 2 := by omega
      have hilen : i < t.length + 1 := by simpa using hi
      rw [timeAt_popM tm a b _ t i h1 hilen,
        timeAt_popM tm a b _ t ((i - 1) / 2) hpar1 (by omega)]
      exact h i (by simp; omega) h1
    · intro c hc h1c hpc h01
      omega

end HeapOrder

/-- Entry of the lazy queue (`detail::LazyEntry<T>`): a time key, a payload
and the liveness flag `exist` (`true` on construction, cleared by
tombstoning `remove`). -/
structure LazyEntry (T : Type) where
  time : ℚ
  payload : T
  exist : Bool
  deriving DecidableEq

/-- Entry of the eager queue (`detail::EagerEntry<T>`): the cached slot index
`loc`, a time key and a payload. -/
structure EagerEntry (T : Type) where
  loc : ℕ
  time : ℚ
  payload : T
  deriving DecidableEq

/-- The write `entry->loc = i` performed by the eager queue after every swap
and every slot move. -/
def withLoc {T : Type} (e : EagerEntry T) (i : ℕ) : EagerEntry T :=
  { e with loc := i }

/-- Reindexing hook of the lazy queue: pointer swaps touch no entry field. -/
def keepEntry {T : Type} (e : LazyEntry T) (_ : ℕ) : LazyEntry T := e

theorem withLoc_time {T : Type} (e : EagerEntry T) (i : ℕ) : (withLoc e i).time = e.time := rfl

theorem withLoc_payload {T : Type} (e : EagerEntry T) (i : ℕ) :
    (withLoc e i).payload = e.payload := rfl

theorem withLoc_loc {T : Type} (e : EagerEntry T) (i : ℕ) : (withLoc e i).loc = i := rfl

section Coherence

variable {T : Type}

/-- Invariant I2 (index coherence) in value form: the entry stored at slot
`i` caches `loc = i`; together with the fact that the backing vector owns
each entry exactly once this renders `backing_array[e.slot] == e`. -/
def Coh (l : List (EagerEntry T)) : Prop :=
  ∀ i, (h : i < l.length) → (l.get ⟨i, h⟩).loc = i

instance (l : List (EagerEntry T)) : Decidable (Coh l) := by
  unfold Coh; infer_instance

theorem Coh_iff (l : List (EagerEntry T)) :
    Coh l ↔ ∀ i (e : EagerEntry T), l[i]? = some e → e.loc = i := by
  constructor
  · intro h i e he
    obtain ⟨hlt, he'⟩ := List.getElem?_eq_some_iff.mp he
    have := h i hlt
    simp only [List.get_eq_getElem] at this
    rw [he'] at this
    exact this
  · intro h i hlt
    simp only [List.get_eq_getElem]
    exact h i _ (List.getElem?_eq_getElem hlt)

theorem Coh_hswap (l : List (EagerEntry T)) (i j : ℕ) (h : Coh l) :
    Coh (hswap withLoc l i j) := by
  rw [Coh_iff] at h ⊢
  intro k e he
  by_cases hi : i < l.length
  · by_cases hj : j < l.length
    · rw [getElem?_hswap withLoc l i j k hi hj] at he
      by_cases hkj : k = j
      · rw [if_pos hkj] at he
        cases he
        exact hkj.symm
      · rw [if_neg hkj] at he
        by_cases hki : k = i
        · rw [if_pos hki] at he
          cases he
          exact hki.symm
        · rw [if_neg hki] at he
          exact h k e he
    · rw [hswap_eq_of_oob withLoc l i j (Or.inr (le_of_not_lt hj))] at he
      exact h k e he
  · rw [hswap_eq_of_oob withLoc l i j (Or.inl (le_of_not_lt hi))] at he
    exact h k e he

theorem Coh_percDownAux (fuel : ℕ) (l : List (EagerEntry T)) (idx : ℕ) (h : Coh l) :
    Coh (percDownAux EagerEntry.time withLoc fuel l idx) := by
  induction fuel generalizing l idx with
  | zero => exact h
  | succ n ih =>
    unfold percDownAux
    by_cases hds : downStep EagerEntry.time l idx = idx
    · rw [if_pos hds]; exact h
    · rw [if_neg hds]
      exact ih _ _ (Coh_hswap l idx _ h)

theorem Coh_percUpAux (fuel : ℕ) (l : List (EagerEntry T)) (idx : ℕ) (h : Coh l) :
    Coh (percUpAux EagerEntry.time withLoc fuel l idx) := by
  induction fuel generalizing l idx with
  | zero => exact h
  | succ n ih =>
    unfold percUpAux
    by_cases h0 : idx = 0
    · rw [if_pos h0]; exact h
    · rw [if_neg h0]
      by_cases hlt : timeAt EagerEntry.time l idx < timeAt EagerEntry.time l ((idx - 1) / 2)
      · rw [if_pos hlt]
        exact ih _ _ (Coh_hswap l idx _ h)
      · rw [if_neg hlt]; exact h

theorem Coh_set (l : List (EagerEntry T)) (j : ℕ) (e : EagerEntry T)
    (h : Coh l) (he : e.loc = j) : Coh (l.set j e) := by
  rw [Coh_iff] at h ⊢
  intro k x hx
  rw [List.getElem?_set] at hx
  by_cases hjk : j = k
  · subst hjk
    by_cases hj : j < l.length
    · rw [if_pos rfl, if_pos hj] at hx
      cases hx
      exact he
    · rw [if_pos rfl, if_neg hj] at hx
      exact Option.noConfusion hx
  · rw [if_neg hjk] at hx
    exact h k x hx

theorem Coh_heapPush (l : List (EagerEntry T)) (e : EagerEntry T)
    (h : Coh l) (he : e.loc = l.length) :
    Coh (heapPush EagerEntry.time withLoc l e) := by
  unfold heapPush percUp
  apply Coh_percUpAux
  rw [Coh_iff] at h ⊢
  intro k x hx
  rw [List.getElem?_append] at hx
  by_cases hk : k < l.length
  · rw [if_pos hk] at hx
    exact h k x hx
  · rw [if_neg hk] at hx
    have : k - l.length = 0 := by
      by_contra hne
      rw [List.getElem?_eq_none (by simp; omega)] at hx
      exact Option.noConfusion hx
    rw [this] at hx
    simp only [List.getElem?_cons_zero, Option.some.injEq] at hx
    subst hx
    omega

theorem Coh_heapPopRest (l : List (EagerEntry T)) (h : Coh l) :
    Coh (heapPopRest EagerEntry.time withLoc l) := by
  match l with
  | [] =>
    show Coh ([] : List (EagerEntry T))
    intro i hi
    exact absurd hi (by simp)
  | [a] =>
    show Coh ([] : List (EagerEntry T))
    intro i hi
    exact absurd hi (by simp)
  | a :: b :: t =>
    show Coh (percDown EagerEntry.time withLoc
      (withLoc ((b :: t).getLast (List.cons_ne_nil b t)) 0 :: (b :: t).dropLast) 0)
    unfold percDown
    apply Coh_percDownAux
    rw [Coh_iff]
    rw [Coh_iff] at h
    intro k x hx
    cases k with
    | zero =>
      simp only [List.getElem?_cons_zero, Option.some.injEq] at hx
      subst hx
      rfl
    | succ k =>
      simp only [List.getElem?_cons_succ] at hx
      rw [List.dropLast_eq_take, List.getElem?_take] at hx
      by_cases hk : k < (b :: t).length - 1
      · rw [if_pos hk] at hx
        exact h (k + 1) x (by simpa using hx)
      · rw [if_neg hk] at hx
        exact Option.noConfusion hx

end Coherence

section Lookup

variable {α : Type}

/-- Position of the first entry satisfying `p`: the value-level rendering of
dereferencing the identity-index pointer `_m.find(id)->second`, which is
well defined because live IDs are unique (invariant I3/I4). -/
def lookupIdx (p : α → Bool) : List α → Option ℕ
  | [] => none
  | a :: t => if p a then some 0 else (lookupIdx p t).map (fun n => n + 1)

theorem lookupIdx_spec (p : α → Bool) (l : List α) (j : ℕ)
    (h : lookupIdx p l = some j) :
    j < l.length ∧ ∃ e, l[j]? = some e ∧ p e = true := by
  induction l generalizing j with
  | nil => exact Option.noConfusion h
  | cons a t ih =>
    unfold lookupIdx at h
    by_cases hp : p a
    · rw [if_pos hp] at h
      cases h
      exact ⟨by simp, a, by simp, hp⟩
    · rw [if_neg hp] at h
      cases ht : lookupIdx p t with
      | none => rw [ht] at h; exact Option.noConfusion h
      | some j0 =>
        rw [ht] at h
        simp only [Option.map_some', Option.some.injEq] at h
        subst h
        obtain ⟨hlt, e, he, hpe⟩ := ih j0 ht
        exact ⟨by simp; omega, e, by simpa using he, hpe⟩

theorem lookupIdx_eq_some_of_unique (p : α → Bool) (l : List α) (j : ℕ)
    (hj : j < l.length) (e : α) (he : l[j]? = some e) (hpe : p e = true)
    (huniq : ∀ i x, l[i]? = some x → p x = true → i = j) :
    lookupIdx p l = some j := by
  induction l generalizing j with
  | nil => simp at hj
  | cons a t ih =>
    unfold lookupIdx
    cases j with
    | zero =>
      simp only [List.getElem?_cons_zero, Option.some.injEq] at he
      subst he
      rw [if_pos hpe]
    | succ j =>
      have hpa : ¬ p a = true := by
        intro hpa
        exact absurd (huniq 0 a (by simp) hpa) (by omega)
      rw [if_neg hpa]
      simp only [List.getElem?_cons_succ] at he
      rw [ih j (by simpa using hj) he]
      · rfl
      · intro i x hx hpx
        have := huniq (i + 1) x (by simpa using hx) hpx
        omega

theorem lookupIdx_eq_none (p : α → Bool) (l : List α)
    (h : ∀ e ∈ l, p e = false) : lookupIdx p l = none := by
  induction l with
  | nil => rfl
  | cons a t ih =>
    unfold lookupIdx
    rw [if_neg (by rw [h a (by simp)]; simp), ih]
    · rfl
    · intro e he
      exact h e (by simp [he])

theorem lookupIdx_isSome_of_mem (p : α → Bool) (l : List α) (e : α)
    (he : e ∈ l) (hpe : p e = true) : ∃ j, lookupIdx p l = some j := by
  induction l with
  | nil => simp at he
  | cons a t ih =>
    unfold lookupIdx
    by_cases hp : p a
    · rw [if_pos hp]
      exact ⟨0, rfl⟩
    · rw [if_neg hp]
      rcases List.mem_cons.mp he with rfl | hmem
      · exact absurd hpe hp
      · obtain ⟨j, hj⟩ := ih hmem
        rw [hj]
        exact ⟨j + 1, rfl⟩

end Lookup

/-- State of `data_structures::LazyQueue<T, ID>`: the heap-ordered backing
vector `_data` (possibly holding tombstoned entries), the live count `_size`
and the key set of the identity index `_m`. -/
structure LazyQueue (T ID : Type) where
  data : List (LazyEntry T)
  size : ℕ
  m : List ID

/-- State of `data_structures::EagerQueue<T, ID>`: the backing vector
`_data` (every entry live, caching its slot) and the key set of the identity
index `_m`. -/
structure EagerQueue (T ID : Type) where
  data : List (EagerEntry T)
  m : List ID

section Queues

variable {T ID : Type} [DecidableEq ID] (idf : T → ID)

namespace LazyQueue

/-- The default-constructed lazy queue. -/
def empty : LazyQueue T ID := ⟨[], 0, []⟩

/-- `LazyQueue::push`: resolve the ID, fail on a duplicate
(`assert(!_m.count(id))`), otherwise append a live entry, record the ID,
bump the live count and `std::push_heap`. -/
def push (q : LazyQueue T ID) (time : ℚ) (x : T) : Except Err (LazyQueue T ID) :=
  if idf x ∈ q.m then .error .duplicateKey
  else .ok
    { data := heapPush LazyEntry.time keepEntry q.data ⟨time, x, true⟩
      size := q.size + 1
      m := idf x :: q.m }

/-- Loop body of `LazyQueue::pop`, with fuel equal to the length of the
backing vector (each iteration physically removes one entry, so this is
exact).  While `_size > 0`: pop the heap root; a tombstoned root is
discarded, a live one is returned after erasing its ID and decrementing the
live count.  When `_size` is zero the loop exits and the call throws; if the
vector empties while `_size > 0` the C++ `std::pop_heap` touches an empty
vector, reported as `Err.oob`. -/
def popAux : ℕ → List (LazyEntry T) → ℕ → List ID →
    Except Err ((ℚ × T) × LazyQueue T ID)
  | fuel, data, sz, m =>
    if sz = 0 then .error .emptyQueue
    else
      match fuel, data with
      | 0, _ => .error .oob
      | _ + 1, [] => .error .oob
      | fuel + 1, e :: rest =>
        if e.exist then
          .ok ((e.time, e.payload),
            { data := heapPopRest LazyEntry.time keepEntry (e :: rest)
              size := sz - 1
              m := m.erase (idf e.payload) })
        else popAux fuel (heapPopRest LazyEntry.time keepEntry (e :: rest)) sz m

/-- `LazyQueue::pop`. -/
def pop (q : LazyQueue T ID) : Except Err ((ℚ × T) × LazyQueue T ID) :=
  popAux idf q.data.length q.data q.size q.m

/-- Loop body of `LazyQueue::peek`, fuelled like `popAux`: physically purge
tombstoned roots, return the first live root without consuming it. -/
def peekAux : ℕ → List (LazyEntry T) → ℕ →
    Except Err ((ℚ × T) × List (LazyEntry T))
  | fuel, data, sz =>
    if sz = 0 then .error .emptyQueue
    else
      match fuel, data with
      | 0, _ => .error .oob
      | _ + 1, [] => .error .oob
      | fuel + 1, e :: rest =>
        if e.exist then .ok ((e.time, e.payload), e :: rest)
        else peekAux fuel (heapPopRest LazyEntry.time keepEntry (e :: rest)) sz

/-- `LazyQueue::peek` (non-const: it purges tombstoned roots in place). -/
def peek (q : LazyQueue T ID) : Except Err ((ℚ × T) × LazyQueue T ID) :=
  match peekAux q.data.length q.data q.size with
  | .error err => .error err
  | .ok (v, d) => .ok (v, { q with data := d })

/-- `LazyQueue::remove`: fail unless the ID is present and its entry live
(`assert(it != _m.end() && it->second->exist)`), otherwise clear the `exist`
flag of the entry the index points at, erase the ID and decrement the live
count.  No heap restructuring happens. -/
def remove (q : LazyQueue T ID) (id : ID) : Except Err (LazyQueue T ID) :=
  if id ∈ q.m then
    match lookupIdx (fun e => e.exist && decide (idf e.payload = id)) q.data with
    | none => .error .notFound
    | some j =>
      match q.data[j]? with
      | none => .error .oob
      | some e => .ok
        { data := q.data.set j { e with exist := false }
          size := q.size - 1
          m := q.m.erase id }
  else .error .notFound

end LazyQueue

namespace EagerQueue

/-- The default-constructed eager queue. -/
def empty : EagerQueue T ID := ⟨[], []⟩

/-- `EagerQueue::push`: resolve the ID, fail on a duplicate
(`assert(!_m.count(id))`), otherwise append an entry recording the new last
slot and sift it up. -/
def push (q : EagerQueue T ID) (time : ℚ) (x : T) : Except Err (EagerQueue T ID) :=
  if idf x ∈ q.m then .error .duplicateKey
  else .ok
    { data := heapPush EagerEntry.time withLoc q.data ⟨q.data.length, time, x⟩
      m := idf x :: q.m }

/-- `EagerQueue::pop` under the observed behaviour of the stale-slot write:
move the last entry into the root slot, shrink, re-cache the root's `loc`,
sift down, erase the popped ID.  When the queue held a single entry the
literal code still executes `_data[0]->loc = 0` after the vector became
empty; the write lands on the already-removed entry and has no observable
effect, so this defined model skips it (see `popRaw` for the literal
bounds-checked rendering, which is claim C6's subject). -/
def pop (q : EagerQueue T ID) : Except Err ((ℚ × T) × EagerQueue T ID) :=
  match q.data with
  | [] => .error .emptyQueue
  | top :: rest =>
    .ok ((top.time, top.payload),
      { data := heapPopRest EagerEntry.time withLoc (top :: rest)
        m := q.m.erase (idf top.payload) })

/-- Literal rendering of `EagerQueue::pop` with every vector access bounds
checked: after `_data[0] = _data.back(); _data.pop_back();` the code writes
`_data[0]->loc = 0` unconditionally, which is out of bounds exactly when the
queue held a single entry. -/
def popRaw (q : EagerQueue T ID) : Except Err ((ℚ × T) × EagerQueue T ID) :=
  match q.data with
  | [] => .error .emptyQueue
  | top :: rest =>
    match ((top :: rest).set 0
        ((top :: rest).getLast (List.cons_ne_nil top rest))).dropLast with
    | [] => .error .oob
    | e0 :: r =>
      .ok ((top.time, top.payload),
        { data := percDown EagerEntry.time withLoc (withLoc e0 0 :: r) 0
          m := q.m.erase (idf top.payload) })

/-- `EagerQueue::peek`: the source returns `_data[0]` WITHOUT an emptiness
check, so on an empty queue it performs an out-of-bounds read (`Err.oob`),
not the `EmptyQueueError` the specification promises. -/
def peek (q : EagerQueue T ID) : Except Err (ℚ × T) :=
  match q.data with
  | [] => .error .oob
  | e :: _ => .ok (e.time, e.payload)

/-- `EagerQueue::remove`: fail unless the ID is present
(`assert(it != _m.end())`); read the slot cached by the entry the index
points at; if it is the last slot just shrink (the source comments that the
general path would seg-fault there), otherwise move the last entry into the
vacated slot, re-cache its `loc`, shrink and `fix` the slot; erase the ID. -/
def remove (q : EagerQueue T ID) (id : ID) : Except Err (EagerQueue T ID) :=
  if id ∈ q.m then
    match lookupIdx (fun e => decide (idf e.payload = id)) q.data with
    | none => .error .notFound
    | some j =>
      match q.data[j]? with
      | none => .error .oob
      | some e =>
        if e.loc = q.data.length - 1 then
          .ok { data := q.data.dropLast, m := q.m.erase id }
        else
          match q.data.getLast? with
          | none => .error .oob
          | some lastE =>
            match ((q.data.set e.loc lastE).dropLast)[e.loc]? with
            | none => .error .oob
            | some e2 =>
              .ok
                { data := hfix EagerEntry.time withLoc
                    (((q.data.set e.loc lastE).dropLast).set e.loc (withLoc e2 e.loc))
                    e.loc
                  m := q.m.erase id }
  else .error .notFound

/-- `EagerQueue::reschedule`: fail unless the ID is present
(`assert(it != _m.end())`); overwrite the entry's time in place and `fix`
the slot cached in the entry. -/
def reschedule (q : EagerQueue T ID) (id : ID) (new_time : ℚ) :
    Except Err (EagerQueue T ID) :=
  if id ∈ q.m then
    match lookupIdx (fun e => decide (idf e.payload = id)) q.data with
    | none => .error .notFound
    | some j =>
      match q.data[j]? with
      | none => .error .oob
      | some e =>
        .ok { data := hfix EagerEntry.time withLoc
                (q.data.set j { e with time := new_time }) e.loc
              m := q.m }
  else .error .notFound

/-- `EagerQueue::size` returns `_data.size()`. -/
def size (q : EagerQueue T ID) : ℕ := q.data.length

end EagerQueue

end Queues

section Invariants

variable {T ID : Type} [DecidableEq ID] (idf : T → ID)

/-- The (time, payload) pairs of the live entries of a lazy backing array,
in array order. -/
def livePairs (l : List (LazyEntry T)) : List (ℚ × T) :=
  (l.filter (fun e => e.exist)).map (fun e => (e.time, e.payload))

/-- The IDs of the live entries of a lazy backing array, in array order. -/
def liveIds (l : List (LazyEntry T)) : List ID :=
  (l.filter (fun e => e.exist)).map (fun e => idf e.payload)

/-- The number of live (non-tombstoned) entries of a lazy backing array. -/
def countLive (l : List (LazyEntry T)) : ℕ :=
  (l.filter (fun e => e.exist)).length

/-- Structural invariants of the lazy queue: I1 (heap order over the whole
array, tombstones included), I5 (`_size` counts the live entries), I4 (the
identity index holds exactly the live IDs) and I3 (live IDs are unique). -/
def LazyInv (q : LazyQueue T ID) : Prop :=
  hOrd LazyEntry.time q.data ∧
  q.size = countLive q.data ∧
  q.m.Perm (liveIds idf q.data) ∧
  (liveIds idf q.data).Nodup

/-- The (time, payload) pairs of an eager backing array, in array order. -/
def pairsE (l : List (EagerEntry T)) : List (ℚ × T) :=
  l.map (fun e => (e.time, e.payload))

/-- The IDs of an eager backing array, in array order. -/
def idsE (l : List (EagerEntry T)) : List ID :=
  l.map (fun e => idf e.payload)

/-- Structural invariants of the eager queue: I1 (heap order), I2 (slot
coherence), I4 (the identity index holds exactly the stored IDs) and I3
(IDs are unique). -/
def EagerInv (q : EagerQueue T ID) : Prop :=
  hOrd EagerEntry.time q.data ∧
  Coh q.data ∧
  q.m.Perm (idsE idf q.data) ∧
  (idsE idf q.data).Nodup

instance (q : LazyQueue T ID) : Decidable (LazyInv idf q) := by
  unfold LazyInv; infer_instance

instance (q : EagerQueue T ID) : Decidable (EagerInv idf q) := by
  unfold EagerInv; infer_instance

theorem liveIds_eq_map_livePairs (l : List (LazyEntry T)) :
    liveIds idf l = (livePairs l).map (fun p => idf p.2) := by
  unfold liveIds livePairs
  rw [List.map_map]
  rfl

theorem idsE_eq_map_pairsE (l : List (EagerEntry T)) :
    idsE idf l = (pairsE l).map (fun p => idf p.2) := by
  unfold idsE pairsE
  rw [List.map_map]
  rfl

theorem livePairs_perm {l1 l2 : List (LazyEntry T)} (h : l1.Perm l2) :
    (livePairs l1).Perm (livePairs l2) :=
  (h.filter _).map _

theorem countLive_perm {l1 l2 : List (LazyEntry T)} (h : l1.Perm l2) :
    countLive l1 = countLive l2 := by
  unfold countLive
  exact (h.filter (fun e => e.exist)).length_eq

theorem livePairs_cons_live (e : LazyEntry T) (rest : List (LazyEntry T))
    (he : e.exist = true) :
    livePairs (e :: rest) = (e.time, e.payload) :: livePairs rest := by
  unfold livePairs
  rw [List.filter_cons, if_pos he]
  rfl

theorem livePairs_cons_dead (e : LazyEntry T) (rest : List (LazyEntry T))
    (he : ¬ e.exist = true) :
    livePairs (e :: rest) = livePairs rest := by
  unfold livePairs
  rw [List.filter_cons, if_neg he]

theorem liveIds_cons_live (e : LazyEntry T) (rest : List (LazyEntry T))
    (he : e.exist = true) :
    liveIds idf (e :: rest) = idf e.payload :: liveIds idf rest := by
  unfold liveIds
  rw [List.filter_cons, if_pos he]
  rfl

theorem liveIds_cons_dead (e : LazyEntry T) (rest : List (LazyEntry T))
    (he : ¬ e.exist = true) :
    liveIds idf (e :: rest) = liveIds idf rest := by
  unfold liveIds
  rw [List.filter_cons, if_neg he]

theorem countLive_cons_live (e : LazyEntry T) (rest : List (LazyEntry T))
    (he : e.exist = true) :
    countLive (e :: rest) = countLive rest + 1 := by
  unfold countLive
  rw [List.filter_cons, if_pos he]
  rfl

theorem countLive_cons_dead (e : LazyEntry T) (rest : List (LazyEntry T))
    (he : ¬ e.exist = true) :
    countLive (e :: rest) = countLive rest := by
  unfold countLive
  rw [List.filter_cons, if_neg he]

theorem countLive_eq_zero_iff (l : List (LazyEntry T)) :
    countLive l = 0 ↔ livePairs l = [] := by
  unfold countLive livePairs
  constructor
  · intro h
    rw [List.length_eq_zero] at h
    rw [h]
    rfl
  · intro h
    have := congrArg List.length h
    simpa using this

/-- Entry-level permutation statement of the lazy heap push. -/
theorem heapPush_perm_lazy (l : List (LazyEntry T)) (e : LazyEntry T) :
    (heapPush LazyEntry.time keepEntry l e).Perm (l ++ [e]) := by
  have := heapPush_map_perm LazyEntry.time keepEntry id (fun _ _ => rfl) l e
  simpa using this

/-- Entry-level permutation statement of the lazy heap pop. -/
theorem heapPopRest_perm_lazy (l : List (LazyEntry T)) (x : LazyEntry T)
    (hx : l[0]? = some x) :
    (x :: heapPopRest LazyEntry.time keepEntry l).Perm l := by
  have := heapPopRest_map_perm LazyEntry.time keepEntry id (fun _ _ => rfl) l x hx
  simpa using this

/-- Pair-level permutation statement of the eager heap push. -/
theorem heapPush_perm_eager (l : List (EagerEntry T)) (e : EagerEntry T) :
    (pairsE (heapPush EagerEntry.time withLoc l e)).Perm (pairsE l ++ [(e.time, e.payload)]) := by
  have := heapPush_map_perm EagerEntry.time withLoc
    (fun e => (e.time, e.payload)) (fun _ _ => rfl) l e
  simpa [pairsE] using this

/-- Pair-level permutation statement of the eager heap pop. -/
theorem heapPopRest_perm_eager (l : List (EagerEntry T)) (x : EagerEntry T)
    (hx : l[0]? = some x) :
    ((x.time, x.payload) :: pairsE (heapPopRest EagerEntry.time withLoc l)).Perm (pairsE l) := by
  have := heapPopRest_map_perm EagerEntry.time withLoc
    (fun e => (e.time, e.payload)) (fun _ _ => rfl) l x hx
  simpa [pairsE] using this

/-- Minimality of the heap root among all stored entries. -/
theorem hOrd_mem_min {α : Type} (tm : α → ℚ) (l : List α) (h : hOrd tm l)
    (x : α) (hx : l[0]? = some x) (y : α) (hy : y ∈ l) : tm x ≤ tm y := by
  obtain ⟨i, hi⟩ := List.mem_iff_getElem?.mp hy
  obtain ⟨hilt, hig⟩ := List.getElem?_eq_some_iff.mp hi
  have h0 := hOrd_root_min tm l h i hilt
  unfold timeAt at h0
  rw [hx, hi] at h0
  exact h0

/-- Tombstoning one live entry decomposes the live projections. -/
theorem livePairs_set_dead (l : List (LazyEntry T)) (j : ℕ) (e : LazyEntry T)
    (he : l[j]? = some e) (hex : e.exist = true) :
    (livePairs l).Perm
      ((e.time, e.payload) :: livePairs (l.set j { e with exist := false })) ∧
    (liveIds idf l).Perm
      (idf e.payload :: liveIds idf (l.set j { e with exist := false })) ∧
    countLive l = countLive (l.set j { e with exist := false }) + 1 := by
  obtain ⟨hj, hg⟩ := List.getElem?_eq_some_iff.mp he
  have hdec : l = l.take j ++ e :: l.drop (j + 1) := by
    rw [← hg, ← List.drop_eq_getElem_cons hj, List.take_append_drop]
  have hset : l.set j { e with exist := false } =
      l.take j ++ { e with exist := false } :: l.drop (j + 1) := by
    rw [List.set_eq_take_append_cons_drop, if_pos hj]
  have hf1 : l.filter (fun x => x.exist) =
      (l.take j).filter (fun x => x.exist) ++
        e :: (l.drop (j + 1)).filter (fun x => x.exist) := by
    conv_lhs => rw [hdec]
    rw [List.filter_append, List.filter_cons, if_pos hex]
  have hf2 : (l.set j { e with exist := false }).filter (fun x => x.exist) =
      (l.take j).filter (fun x => x.exist) ++
        (l.drop (j + 1)).filter (fun x => x.exist) := by
    rw [hset, List.filter_append, List.filter_cons, if_neg (by simp)]
  refine ⟨?_, ?_, ?_⟩
  · unfold livePairs
    rw [hf1, hf2, List.map_append, List.map_cons, List.map_append]
    exact List.perm_middle
  · unfold liveIds
    rw [hf1, hf2, List.map_append, List.map_cons, List.map_append]
    exact List.perm_middle
  · unfold countLive
    rw [hf1, hf2]
    simp only [List.length_append, List.length_cons]
    omega

end Invariants

section LazySpec

variable {T ID : Type} [DecidableEq ID] (idf : T → ID)

theorem liveIds_perm {l1 l2 : List (LazyEntry T)} (h : l1.Perm l2) :
    (liveIds idf l1).Perm (liveIds idf l2) :=
  (h.filter _).map _

namespace LazyQueue

theorem popAux_sz_zero (fuel : ℕ) (data : List (LazyEntry T)) (m : List ID) :
    popAux idf fuel data 0 m = .error .emptyQueue := by
  unfold popAux
  rw [if_pos rfl]

theorem popAux_cons (fuel : ℕ) (e : LazyEntry T) (rest : List (LazyEntry T))
    (sz : ℕ) (m : List ID) (hsz : sz ≠ 0) :
    popAux idf (fuel + 1) (e :: rest) sz m =
      if e.exist then
        .ok ((e.time, e.payload),
          { data := heapPopRest LazyEntry.time keepEntry (e :: rest)
            size := sz - 1
            m := m.erase (idf e.payload) })
      else popAux idf fuel (heapPopRest LazyEntry.time keepEntry (e :: rest)) sz m := by
  conv_lhs => unfold popAux
  rw [if_neg hsz]

theorem popAux_spec : ∀ (n : ℕ) (data : List (LazyEntry T)) (sz : ℕ) (m : List ID),
    data.length = n →
    hOrd LazyEntry.time data → sz = countLive data →
    m.Perm (liveIds idf data) → (liveIds idf data).Nodup → 0 < sz →
    ∃ t x q', popAux idf data.length data sz m = .ok ((t, x), q') ∧
      LazyInv idf q' ∧
      (livePairs data).Perm ((t, x) :: livePairs q'.data) ∧
      (∀ p ∈ livePairs q'.data, t ≤ p.1) ∧
      q'.data.length < data.length := by
  intro n
  induction n using Nat.strong_induction_on with
  | _ n ih =>
    intro data sz m hlen hord hsz hm hnd hpos
    cases data with
    | nil =>
      rw [hsz] at hpos
      simp [countLive] at hpos
    | cons e rest =>
      have hlen' : (e :: rest).length = rest.length + 1 := by simp
      have hx0 : ((e :: rest) : List (LazyEntry T))[0]? = some e := by simp
      rw [hlen', popAux_cons idf rest.length e rest sz m (by omega)]
      have hperm : ((e :: heapPopRest LazyEntry.time keepEntry (e :: rest))).Perm
          (e :: rest) := heapPopRest_perm_lazy (e :: rest) e hx0
      have hordrest := hOrd_heapPopRest LazyEntry.time keepEntry
        (fun _ _ => rfl) (e :: rest) hord
      have hlenrest : (heapPopRest LazyEntry.time keepEntry (e :: rest)).length
          = rest.length := by
        rw [length_heapPopRest]
        simp
      by_cases hex : e.exist
      · rw [if_pos hex]
        refine ⟨e.time, e.payload,
          ⟨heapPopRest LazyEntry.time keepEntry (e :: rest), sz - 1,
            m.erase (idf e.payload)⟩, rfl, ⟨hordrest, ?_, ?_, ?_⟩, ?_, ?_, ?_⟩
        · -- size accounting
          show sz - 1 = countLive (heapPopRest LazyEntry.time keepEntry (e :: rest))
          have h1 := countLive_perm hperm
          rw [countLive_cons_live e (heapPopRest LazyEntry.time keepEntry (e :: rest)) hex,
            countLive_cons_live e rest hex] at h1
          rw [countLive_cons_live e rest hex] at hsz
          omega
        · -- identity index against live ids
          show (m.erase (idf e.payload)).Perm
            (liveIds idf (heapPopRest LazyEntry.time keepEntry (e :: rest)))
          have h1 : (m.erase (idf e.payload)).Perm
              ((liveIds idf (e :: rest)).erase (idf e.payload)) := hm.erase _
          have h2 : (liveIds idf (e :: rest)).Perm
              (liveIds idf (e :: heapPopRest LazyEntry.time keepEntry (e :: rest))) :=
            liveIds_perm idf hperm.symm
          refine h1.trans ((h2.erase _).trans ?_)
          rw [liveIds_cons_live idf e _ hex, List.erase_cons_head]
        · -- live ids of the rest are still nodup
          have h2 : (liveIds idf (e :: rest)).Nodup ↔
              (liveIds idf (e :: heapPopRest LazyEntry.time keepEntry (e :: rest))).Nodup :=
            (liveIds_perm idf hperm.symm).nodup_iff
          have h3 := h2.mp hnd
          rw [liveIds_cons_live idf e _ hex] at h3
          exact (List.nodup_cons.mp h3).2
        · -- pair multiset decomposition
          have h2 : (livePairs (e :: rest)).Perm
              (livePairs (e :: heapPopRest LazyEntry.time keepEntry (e :: rest))) :=
            livePairs_perm hperm.symm
          rw [livePairs_cons_live e (heapPopRest LazyEntry.time keepEntry (e :: rest)) hex] at h2
          exact h2
        · -- minimality of the returned time
          intro p hp
          obtain ⟨y, hy, hyp⟩ := List.mem_map.mp hp
          have hymem : y ∈ heapPopRest LazyEntry.time keepEntry (e :: rest) :=
            (List.mem_filter.mp hy).1
          have : y ∈ (e :: rest) := hperm.mem_iff.mp (by simp [hymem])
          have := hOrd_mem_min LazyEntry.time (e :: rest) hord e hx0 y this
          rw [← hyp]
          exact this
        · rw [hlenrest]
          omega
      · rw [if_neg hex]
        have hsz' : sz = countLive (heapPopRest LazyEntry.time keepEntry (e :: rest)) := by
          have h1 := countLive_perm hperm
          rw [countLive_cons_dead e (heapPopRest LazyEntry.time keepEntry (e :: rest)) hex,
            countLive_cons_dead e rest hex] at h1
          have hsz2 := hsz
          rw [countLive_cons_dead e rest hex] at hsz2
          omega
        have hm' : m.Perm (liveIds idf (heapPopRest LazyEntry.time keepEntry (e :: rest))) := by
          refine hm.trans ?_
          have h2 := liveIds_perm idf hperm.symm
          rw [liveIds_cons_dead idf e (heapPopRest LazyEntry.time keepEntry (e :: rest)) hex] at h2
          exact h2
        have hnd' : (liveIds idf (heapPopRest LazyEntry.time keepEntry (e :: rest))).Nodup := by
          have h2 := (liveIds_perm idf hperm.symm).nodup_iff.mp hnd
          rw [liveIds_cons_dead idf e (heapPopRest LazyEntry.time keepEntry (e :: rest)) hex] at h2
          exact h2
        obtain ⟨t, x, q', heq, hinv, hperm2, hmin, hlt⟩ :=
          ih rest.length (by omega) (heapPopRest LazyEntry.time keepEntry (e :: rest))
            sz m hlenrest hordrest hsz' hm' hnd' hpos
        rw [hlenrest] at heq
        refine ⟨t, x, q', heq, hinv, ?_, hmin, ?_⟩
        · have h2 : (livePairs (e :: rest)).Perm
              (livePairs (heapPopRest LazyEntry.time keepEntry (e :: rest))) := by
            have := livePairs_perm hperm.symm
            rw [livePairs_cons_dead e (heapPopRest LazyEntry.time keepEntry (e :: rest)) hex] at this
            exact this
          exact h2.trans hperm2
        · rw [hlenrest] at hlt
          omega

/-- Success and invariant preservation of `LazyQueue::pop` on a queue with a
positive live count. -/
theorem pop_spec (q : LazyQueue T ID) (h : LazyInv idf q) (hpos : 0 < q.size) :
    ∃ t x q', pop idf q = .ok ((t, x), q') ∧
      LazyInv idf q' ∧
      (livePairs q.data).Perm ((t, x) :: livePairs q'.data) ∧
      (∀ p ∈ livePairs q'.data, t ≤ p.1) ∧
      q'.data.length < q.data.length := by
  obtain ⟨h1, h2, h3, h4⟩ := h
  exact popAux_spec idf q.data.length q.data q.size q.m rfl h1 h2 h3 h4 hpos

theorem pop_sz_zero (q : LazyQueue T ID) (h : q.size = 0) :
    pop idf q = .error .emptyQueue := by
  unfold pop
  rw [h]
  exact popAux_sz_zero idf q.data.length q.data q.m

theorem popAux_zero_fuel (data : List (LazyEntry T)) (sz : ℕ) (m : List ID) :
    popAux idf 0 data sz m =
      if sz = 0 then .error .emptyQueue else .error .oob := by
  conv_lhs => unfold popAux

theorem popAux_nil (fuel : ℕ) (sz : ℕ) (m : List ID) (hsz : sz ≠ 0) :
    popAux idf fuel ([] : List (LazyEntry T)) sz m = .error .oob := by
  conv_lhs => unfold popAux
  rw [if_neg hsz]
  cases fuel <;> rfl

theorem popAux_ok_length : ∀ (fuel : ℕ) (data : List (LazyEntry T)) (sz : ℕ)
    (m : List ID) (v : ℚ × T) (q' : LazyQueue T ID),
    popAux idf fuel data sz m = .ok (v, q') → q'.data.length < data.length := by
  intro fuel
  induction fuel with
  | zero =>
    intro data sz m v q' h
    rw [popAux_zero_fuel] at h
    by_cases hsz : sz = 0
    · rw [if_pos hsz] at h; exact Except.noConfusion h
    · rw [if_neg hsz] at h; exact Except.noConfusion h
  | succ n ih =>
    intro data sz m v q' h
    by_cases hsz : sz = 0
    · subst hsz
      rw [popAux_sz_zero] at h
      exact Except.noConfusion h
    · cases data with
      | nil =>
        rw [popAux_nil idf (n + 1) sz m hsz] at h
        exact Except.noConfusion h
      | cons e rest =>
        rw [popAux_cons idf n e rest sz m hsz] at h
        have hlenrest : (heapPopRest LazyEntry.time keepEntry (e :: rest)).length
            = rest.length := by
          rw [length_heapPopRest]
          simp
        by_cases hex : e.exist
        · rw [if_pos hex] at h
          simp only [Except.ok.injEq, Prod.mk.injEq] at h
          obtain ⟨h1, h2⟩ := h
          subst h2
          show (heapPopRest LazyEntry.time keepEntry (e :: rest)).length
            < (e :: rest).length
          rw [hlenrest]
          simp
        · rw [if_neg hex] at h
          have := ih _ _ _ _ _ h
          rw [hlenrest] at this
          simp only [List.length_cons]
          omega

theorem peekAux_sz_zero (fuel : ℕ) (data : List (LazyEntry T)) :
    peekAux fuel data 0 = .error .emptyQueue := by
  unfold peekAux
  rw [if_pos rfl]

theorem peekAux_cons (fuel : ℕ) (e : LazyEntry T) (rest : List (LazyEntry T))
    (sz : ℕ) (hsz : sz ≠ 0) :
    peekAux (fuel + 1) (e :: rest) sz =
      if e.exist then .ok ((e.time, e.payload), e :: rest)
      else peekAux fuel (heapPopRest LazyEntry.time keepEntry (e :: rest)) sz := by
  conv_lhs => unfold peekAux
  rw [if_neg hsz]

theorem peekAux_spec : ∀ (n : ℕ) (data : List (LazyEntry T)) (sz : ℕ),
    data.length = n → hOrd LazyEntry.time data → sz = countLive data → 0 < sz →
    ∃ v d, peekAux data.length data sz = .ok (v, d) := by
  intro n
  induction n using Nat.strong_induction_on with
  | _ n ih =>
    intro data sz hlen hord hsz hpos
    cases data with
    | nil =>
      rw [hsz] at hpos
      simp [countLive] at hpos
    | cons e rest =>
      have hlen' : (e :: rest).length = rest.length + 1 := by simp
      have hx0 : ((e :: rest) : List (LazyEntry T))[0]? = some e := by simp
      rw [hlen', peekAux_cons rest.length e rest sz (by omega)]
      by_cases hex : e.exist
      · rw [if_pos hex]
        exact ⟨_, _, rfl⟩
      · rw [if_neg hex]
        have hperm : ((e :: heapPopRest LazyEntry.time keepEntry (e :: rest))).Perm
            (e :: rest) := heapPopRest_perm_lazy (e :: rest) e hx0
        have hordrest := hOrd_heapPopRest LazyEntry.time keepEntry
          (fun _ _ => rfl) (e :: rest) hord
        have hlenrest : (heapPopRest LazyEntry.time keepEntry (e :: rest)).length
            = rest.length := by
          rw [length_heapPopRest]
          simp
        have hsz' : sz = countLive (heapPopRest LazyEntry.time keepEntry (e :: rest)) := by
          have h1 := countLive_perm hperm
          rw [countLive_cons_dead e (heapPopRest LazyEntry.time keepEntry (e :: rest)) hex,
            countLive_cons_dead e rest hex] at h1
          have hsz2 := hsz
          rw [countLive_cons_dead e rest hex] at hsz2
          omega
        obtain ⟨v, d, heq⟩ := ih rest.length (by omega)
          (heapPopRest LazyEntry.time keepEntry (e :: rest)) sz hlenrest hordrest hsz' hpos
        rw [hlenrest] at heq
        exact ⟨v, d, heq⟩

theorem peek_spec (q : LazyQueue T ID) (h : LazyInv idf q) (hpos : 0 < q.size) :
    ∃ v q', peek q = .ok (v, q') := by
  obtain ⟨h1, h2, _, _⟩ := h
  obtain ⟨v, d, heq⟩ := peekAux_spec q.data.length q.data q.size rfl h1 h2 hpos
  refine ⟨v, { q with data := d }, ?_⟩
  unfold peek
  rw [heq]

theorem peek_sz_zero (q : LazyQueue T ID) (h : q.size = 0) :
    peek q = .error .emptyQueue := by
  unfold peek
  rw [h, peekAux_sz_zero]

theorem push_dup (q : LazyQueue T ID) (t : ℚ) (x : T) (hmem : idf x ∈ q.m) :
    push idf q t x = .error .duplicateKey := by
  unfold push
  rw [if_pos hmem]

theorem push_ok (q : LazyQueue T ID) (t : ℚ) (x : T) (hmem : idf x ∉ q.m) :
    push idf q t x = .ok
      { data := heapPush LazyEntry.time keepEntry q.data ⟨t, x, true⟩
        size := q.size + 1
        m := idf x :: q.m } := by
  unfold push
  rw [if_neg hmem]

theorem countLive_append_live (l : List (LazyEntry T)) (t : ℚ) (x : T) :
    countLive (l ++ [⟨t, x, true⟩]) = countLive l + 1 := by
  unfold countLive
  rw [List.filter_append]
  simp

theorem push_inv (q : LazyQueue T ID) (t : ℚ) (x : T) (hmem : idf x ∉ q.m)
    (h : LazyInv idf q) :
    LazyInv idf
      { data := heapPush LazyEntry.time keepEntry q.data ⟨t, x, true⟩
        size := q.size + 1
        m := idf x :: q.m } ∧
    (livePairs (heapPush LazyEntry.time keepEntry q.data ⟨t, x, true⟩)).Perm
      ((t, x) :: livePairs q.data) := by
  obtain ⟨h1, h2, h3, h4⟩ := h
  have hperm : (heapPush LazyEntry.time keepEntry q.data ⟨t, x, true⟩).Perm
      (q.data ++ [⟨t, x, true⟩]) := heapPush_perm_lazy q.data ⟨t, x, true⟩
  have hpairs : (livePairs (heapPush LazyEntry.time keepEntry q.data ⟨t, x, true⟩)).Perm
      ((t, x) :: livePairs q.data) := by
    refine (livePairs_perm hperm).trans ?_
    unfold livePairs
    rw [List.filter_append]
    simp only [List.filter_cons, List.filter_nil, if_true, List.map_append,
      List.map_cons, List.map_nil]
    exact List.perm_append_comm
  have hids : (liveIds idf (heapPush LazyEntry.time keepEntry q.data ⟨t, x, true⟩)).Perm
      (idf x :: liveIds idf q.data) := by
    rw [liveIds_eq_map_livePairs, liveIds_eq_map_livePairs]
    have := hpairs.map (fun p => idf p.2)
    simpa using this
  refine ⟨⟨?_, ?_, ?_, ?_⟩, hpairs⟩
  · exact hOrd_heapPush LazyEntry.time keepEntry (fun _ _ => rfl) q.data _ h1
  · show q.size + 1 = countLive (heapPush LazyEntry.time keepEntry q.data ⟨t, x, true⟩)
    rw [countLive_perm hperm, countLive_append_live]
    omega
  · exact (List.Perm.cons (idf x) h3).trans hids.symm
  · rw [hids.nodup_iff]
    rw [List.nodup_cons]
    refine ⟨?_, h4⟩
    intro hmem2
    exact hmem (h3.mem_iff.mpr hmem2)

theorem remove_notFound (q : LazyQueue T ID) (id : ID) (hmem : id ∉ q.m) :
    remove idf q id = .error .notFound := by
  unfold remove
  rw [if_neg hmem]

/-- Generic helper: overwriting one slot with an entry of equal time keeps
heap order (used for tombstoning and for the value part of reschedule). -/
theorem hOrd_set_same_time {α : Type} (tm : α → ℚ) (l : List α) (j : ℕ) (e e' : α)
    (hj : l[j]? = some e) (hte : tm e' = tm e) (h : hOrd tm l) : hOrd tm (l.set j e') := by
  obtain ⟨hjl, _⟩ := List.getElem?_eq_some_iff.mp hj
  have hta : ∀ x, timeAt tm (l.set j e') x = timeAt tm l x := by
    intro x
    rw [timeAt_set tm l j e' hjl x]
    by_cases hx : x = j
    · subst hx
      rw [if_pos rfl]
      unfold timeAt
      rw [hj, hte]
    · rw [if_neg hx]
  intro i hi h1
  rw [List.length_set] at hi
  rw [hta, hta]
  exact h i hi h1

/-- Exact characterisation of a successful `LazyQueue::remove` when the
caller can point at the (unique) live entry carrying the ID. -/
theorem remove_ok_char (q : LazyQueue T ID) (id : ID) (j : ℕ) (e : LazyEntry T)
    (hmem : id ∈ q.m)
    (hj : q.data[j]? = some e) (hex : e.exist = true) (hid : idf e.payload = id)
    (huniq : ∀ i x, q.data[i]? = some x → x.exist = true → idf x.payload = id → i = j) :
    remove idf q id = .ok
      { data := q.data.set j { e with exist := false }
        size := q.size - 1
        m := q.m.erase id } := by
  unfold remove
  rw [if_pos hmem]
  have hlk : lookupIdx (fun e => e.exist && decide (idf e.payload = id)) q.data = some j := by
    apply lookupIdx_eq_some_of_unique _ _ j (List.getElem?_eq_some_iff.mp hj).1 e hj ?_ ?_
    · rw [Bool.and_eq_true, decide_eq_true_eq]
      exact ⟨hex, hid⟩
    · intro i x hx hpx
      rw [Bool.and_eq_true, decide_eq_true_eq] at hpx
      exact huniq i x hx hpx.1 hpx.2
  simp only [hlk, hj]

/-- Success and invariant preservation of `LazyQueue::remove` on a present
ID. -/
theorem remove_inv (q : LazyQueue T ID) (id : ID) (h : LazyInv idf q)
    (hmem : id ∈ q.m) :
    ∃ j e, q.data[j]? = some e ∧ e.exist = true ∧ idf e.payload = id ∧
      remove idf q id = .ok
        { data := q.data.set j { e with exist := false }
          size := q.size - 1
          m := q.m.erase id } ∧
      LazyInv idf
        { data := q.data.set j { e with exist := false }
          size := q.size - 1
          m := q.m.erase id } ∧
      (livePairs q.data).Perm
        ((e.time, e.payload) :: livePairs (q.data.set j { e with exist := false })) := by
  obtain ⟨h1, h2, h3, h4⟩ := h
  have hidmem : id ∈ liveIds idf q.data := h3.mem_iff.mp hmem
  obtain ⟨y, hy, hyid⟩ := List.mem_map.mp hidmem
  obtain ⟨hymem, hyex⟩ := List.mem_filter.mp hy
  have hpy : (fun e => e.exist && decide (idf e.payload = id)) y = true := by
    rw [Bool.and_eq_true, decide_eq_true_eq]
    exact ⟨hyex, hyid⟩
  obtain ⟨j, hlk⟩ := lookupIdx_isSome_of_mem
    (fun e => e.exist && decide (idf e.payload = id)) q.data y hymem hpy
  obtain ⟨hjlt, e, he, hpe⟩ := lookupIdx_spec _ q.data j hlk
  rw [Bool.and_eq_true, decide_eq_true_eq] at hpe
  obtain ⟨hex, hid⟩ := hpe
  obtain ⟨hdp, hdi, hdc⟩ := livePairs_set_dead idf q.data j e he hex
  refine ⟨j, e, he, hex, hid, ?_, ⟨?_, ?_, ?_, ?_⟩, hdp⟩
  · unfold remove
    rw [if_pos hmem]
    simp only [hlk, he]
  · exact hOrd_set_same_time LazyEntry.time q.data j e _ he rfl h1
  · show q.size - 1 = countLive (q.data.set j { e with exist := false })
    omega
  · show (q.m.erase id).Perm (liveIds idf (q.data.set j { e with exist := false }))
    refine (h3.erase id).trans ?_
    refine (hdi.erase id).trans ?_
    rw [hid, List.erase_cons_head]
  · have := hdi.nodup_iff.mp h4
    exact (List.nodup_cons.mp this).2

end LazyQueue

end LazySpec

section EagerSpec

variable {T ID : Type} [DecidableEq ID] (idf : T → ID)

theorem hfix_map_perm {α β : Type} (tm : α → ℚ) (ri : α → ℕ → α) (pj : α → β)
    (hpj : ∀ e k, pj (ri e k) = pj e) (l : List α) (idx : ℕ) :
    ((hfix tm ri l idx).map pj).Perm (l.map pj) := by
  unfold hfix
  by_cases h : downStep tm l idx = idx
  · rw [if_pos h]
    exact percUpAux_map_perm tm ri pj hpj ..
  · rw [if_neg h]
    exact percDownAux_map_perm tm ri pj hpj ..

theorem Coh_hfix (l : List (EagerEntry T)) (idx : ℕ) (h : Coh l) :
    Coh (hfix EagerEntry.time withLoc l idx) := by
  unfold hfix
  by_cases hds : downStep EagerEntry.time l idx = idx
  · rw [if_pos hds]
    exact Coh_percUpAux _ _ _ h
  · rw [if_neg hds]
    exact Coh_percDownAux _ _ _ h

theorem Coh_dropLast (l : List (EagerEntry T)) (h : Coh l) : Coh l.dropLast := by
  rw [Coh_iff] at h ⊢
  intro k e he
  rw [List.dropLast_eq_take, List.getElem?_take] at he
  by_cases hk : k < l.length - 1
  · rw [if_pos hk] at he
    exact h k e he
  · rw [if_neg hk] at he
    exact Option.noConfusion he

/-- Moving the last element of a list into an interior slot `j` and dropping
the last slot permutes the list minus its old slot-`j` element. -/
theorem cons_set_getLast_dropLast_perm_at {β : Type} (P : List β) (j : ℕ) (x : β)
    (hx : P[j]? = some x) (hj : j < P.length - 1) (z : β) (hz : P.getLast? = some z) :
    (x :: (P.set j z).dropLast).Perm P := by
  obtain ⟨hjl, hg⟩ := List.getElem?_eq_some_iff.mp hx
  have hdec : P = P.take j ++ x :: P.drop (j + 1) := by
    rw [← hg, ← List.drop_eq_getElem_cons hjl, List.take_append_drop]
  have hset : P.set j z = P.take j ++ z :: P.drop (j + 1) := by
    rw [List.set_eq_take_append_cons_drop, if_pos hjl]
  have hdne : P.drop (j + 1) ≠ [] := by
    intro hnil
    have := congrArg List.length hnil
    simp only [List.length_drop, List.length_nil] at this
    omega
  have hzlast : (P.drop (j + 1)).getLast? = some z := by
    have h1 : P.getLast? = (x :: P.drop (j + 1)).getLast? := by
      conv_lhs => rw [hdec]
      exact List.getLast?_append_of_ne_nil _ (List.cons_ne_nil x _)
    have h2 : (x :: P.drop (j + 1)).getLast? = (P.drop (j + 1)).getLast? := by
      rw [← List.singleton_append]
      exact List.getLast?_append_of_ne_nil _ hdne
    rw [← h2, ← h1, hz]
  have hdrop : (z :: (P.drop (j + 1)).dropLast).Perm (P.drop (j + 1)) :=
    getLast_cons_dropLast_perm _ z hzlast
  have hstep : (P.set j z).dropLast = P.take j ++ z :: (P.drop (j + 1)).dropLast := by
    rw [hset, List.dropLast_append_of_ne_nil _ (List.cons_ne_nil z _)]
    congr 1
    cases hd : P.drop (j + 1) with
    | nil => exact absurd hd hdne
    | cons a t => rfl
  rw [hstep]
  refine (List.Perm.cons x (List.Perm.append_left (P.take j) hdrop)).trans ?_
  conv_rhs => rw [hdec]
  exact List.perm_middle.symm

namespace EagerQueue

theorem push_dupE (q : EagerQueue T ID) (t : ℚ) (x : T) (hmem : idf x ∈ q.m) :
    push idf q t x = .error .duplicateKey := by
  unfold push
  rw [if_pos hmem]

theorem push_okE (q : EagerQueue T ID) (t : ℚ) (x : T) (hmem : idf x ∉ q.m) :
    push idf q t x = .ok
      { data := heapPush EagerEntry.time withLoc q.data ⟨q.data.length, t, x⟩
        m := idf x :: q.m } := by
  unfold push
  rw [if_neg hmem]

theorem push_invE (q : EagerQueue T ID) (t : ℚ) (x : T) (hmem : idf x ∉ q.m)
    (h : EagerInv idf q) :
    EagerInv idf
      { data := heapPush EagerEntry.time withLoc q.data ⟨q.data.length, t, x⟩
        m := idf x :: q.m } ∧
    (pairsE (heapPush EagerEntry.time withLoc q.data ⟨q.data.length, t, x⟩)).Perm
      ((t, x) :: pairsE q.data) := by
  obtain ⟨h1, h2, h3, h4⟩ := h
  have hpairs : (pairsE (heapPush EagerEntry.time withLoc q.data ⟨q.data.length, t, x⟩)).Perm
      ((t, x) :: pairsE q.data) := by
    refine (heapPush_perm_eager q.data ⟨q.data.length, t, x⟩).trans ?_
    exact List.perm_append_comm
  have hids : (idsE idf (heapPush EagerEntry.time withLoc q.data ⟨q.data.length, t, x⟩)).Perm
      (idf x :: idsE idf q.data) := by
    rw [idsE_eq_map_pairsE, idsE_eq_map_pairsE]
    have := hpairs.map (fun p => idf p.2)
    simpa using this
  refine ⟨⟨?_, ?_, ?_, ?_⟩, hpairs⟩
  · exact hOrd_heapPush EagerEntry.time withLoc (fun _ _ => rfl) q.data _ h1
  · exact Coh_heapPush q.data _ h2 rfl
  · exact (List.Perm.cons (idf x) h3).trans hids.symm
  · rw [hids.nodup_iff, List.nodup_cons]
    refine ⟨?_, h4⟩
    intro hmem2
    exact hmem (h3.mem_iff.mpr hmem2)

theorem pop_empty (q : EagerQueue T ID) (h : q.data = []) :
    pop idf q = .error .emptyQueue := by
  unfold pop
  rw [h]

theorem pop_specE (q : EagerQueue T ID) (h : EagerInv idf q) (hne : q.data ≠ []) :
    ∃ t x q', pop idf q = .ok ((t, x), q') ∧ EagerInv idf q' ∧
      (pairsE q.data).Perm ((t, x) :: pairsE q'.data) ∧
      (∀ p ∈ pairsE q'.data, t ≤ p.1) ∧
      q'.data.length = q.data.length - 1 := by
  obtain ⟨data, m⟩ := q
  obtain ⟨h1, h2, h3, h4⟩ := h
  cases data with
  | nil => exact absurd rfl hne
  | cons top rest =>
    have hx0 : ((top :: rest) : List (EagerEntry T))[0]? = some top := by simp
    have hpairs := heapPopRest_perm_eager (top :: rest) top hx0
    have hids : (idf top.payload ::
        idsE idf (heapPopRest EagerEntry.time withLoc (top :: rest))).Perm
        (idsE idf (top :: rest)) := by
      have := hpairs.map (fun p => idf p.2)
      rw [← idsE_eq_map_pairsE] at this
      simpa [← idsE_eq_map_pairsE] using this
    refine ⟨top.time, top.payload,
      ⟨heapPopRest EagerEntry.time withLoc (top :: rest), m.erase (idf top.payload)⟩,
      rfl, ⟨?_, ?_, ?_, ?_⟩, hpairs.symm, ?_, ?_⟩
    · exact hOrd_heapPopRest EagerEntry.time withLoc (fun _ _ => rfl) (top :: rest) h1
    · exact Coh_heapPopRest (top :: rest) h2
    · show (m.erase (idf top.payload)).Perm
        (idsE idf (heapPopRest EagerEntry.time withLoc (top :: rest)))
      refine (h3.erase _).trans ?_
      refine ((hids.symm).erase _).trans ?_
      rw [List.erase_cons_head]
    · show (idsE idf (heapPopRest EagerEntry.time withLoc (top :: rest))).Nodup
      have := hids.symm.nodup_iff.mp h4
      exact (List.nodup_cons.mp this).2
    · -- minimality via the time projection
      intro p hp
      have hp1 : p.1 ∈ ((top :: rest) : List (EagerEntry T)).map EagerEntry.time := by
        have htimes := hpairs.map Prod.fst
        have hmem1 : p.1 ∈ (pairsE (heapPopRest EagerEntry.time withLoc (top :: rest))).map
            Prod.fst := List.mem_map.mpr ⟨p, hp, rfl⟩
        have hmem2 : p.1 ∈ (pairsE ((top :: rest) : List (EagerEntry T))).map Prod.fst :=
          htimes.mem_iff.mp (by
            simp only [List.map_cons]
            exact List.mem_cons_of_mem _ hmem1)
        unfold pairsE at hmem2
        rw [List.map_map] at hmem2
        exact hmem2
      obtain ⟨y, hy, hyt⟩ := List.mem_map.mp hp1
      have := hOrd_mem_min EagerEntry.time (top :: rest) h1 top hx0 y hy
      rw [hyt] at this
      exact this
    · show (heapPopRest EagerEntry.time withLoc (top :: rest)).length
        = (top :: rest).length - 1
      rw [length_heapPopRest]

theorem remove_notFoundE (q : EagerQueue T ID) (id : ID) (hmem : id ∉ q.m) :
    remove idf q id = .error .notFound := by
  unfold remove
  rw [if_neg hmem]

theorem reschedule_notFound (q : EagerQueue T ID) (id : ID) (nt : ℚ) (hmem : id ∉ q.m) :
    reschedule idf q id nt = .error .notFound := by
  unfold reschedule
  rw [if_neg hmem]

/-- Full characterisation of a successful `EagerQueue::remove` given heap
order and slot coherence: the result state, its heap order and coherence,
and the pair-multiset bookkeeping. -/
theorem remove_char (q : EagerQueue T ID) (id : ID) (hmem : id ∈ q.m)
    (h1 : hOrd EagerEntry.time q.data) (h2 : Coh q.data)
    (j : ℕ) (hlk : lookupIdx (fun e => decide (idf e.payload = id)) q.data = some j) :
    ∃ e d', q.data[j]? = some e ∧ idf e.payload = id ∧
      remove idf q id = .ok ⟨d', q.m.erase id⟩ ∧
      hOrd EagerEntry.time d' ∧ Coh d' ∧
      ((e.time, e.payload) :: pairsE d').Perm (pairsE q.data) ∧
      d'.length = q.data.length - 1 := by
  obtain ⟨hjlt, e, he, hpe⟩ := lookupIdx_spec _ q.data j hlk
  rw [decide_eq_true_eq] at hpe
  have heloc : e.loc = j := (Coh_iff q.data).mp h2 j e he
  have hne : q.data ≠ [] := by
    intro h0
    rw [h0] at hjlt
    simp at hjlt
  by_cases hj : j = q.data.length - 1
  · refine ⟨e, q.data.dropLast, he, hpe, ?_,
      hOrd_dropLast _ _ h1, Coh_dropLast _ h2, ?_, by simp⟩
    · unfold remove
      rw [if_pos hmem]
      simp only [hlk, he]
      rw [if_pos (by rw [heloc, hj])]
    · have hgl : q.data.getLast hne = e := by
        rw [List.getLast_eq_getElem]
        rw [hj] at he
        exact (List.getElem?_eq_some_iff.mp he).2
      have hdec : q.data = q.data.dropLast ++ [e] := by
        conv_lhs => rw [← List.dropLast_append_getLast hne]
        rw [hgl]
      conv_rhs => rw [hdec]
      unfold pairsE
      rw [List.map_append]
      simp only [List.map_cons, List.map_nil]
      rw [← List.singleton_append]
      exact List.perm_append_comm
  · have hjlt2 : j < q.data.length - 1 := by omega
    have hlast : q.data.getLast? = some (q.data.getLast hne) :=
      List.getLast?_eq_getLast q.data hne
    have hd1 : ((q.data.set e.loc (q.data.getLast hne)).dropLast)[e.loc]? =
        some (q.data.getLast hne) := by
      rw [heloc, List.dropLast_eq_take, List.getElem?_take,
        if_pos (by rw [List.length_set]; exact hjlt2)]
      rw [List.getElem?_set, if_pos rfl, if_pos hjlt]
    refine ⟨e, hfix EagerEntry.time withLoc
      (((q.data.set e.loc (q.data.getLast hne)).dropLast).set e.loc
        (withLoc (q.data.getLast hne) e.loc)) e.loc,
      he, hpe, ?_, ?_, ?_, ?_, ?_⟩
    · unfold remove
      rw [if_pos hmem]
      simp only [hlk, he]
      rw [if_neg (by rw [heloc]; exact fun hc => hj hc)]
      simp only [hlast, hd1]
    · -- heap order from hfix: the removed slot was the only disturbance
      apply hfix_restore EagerEntry.time withLoc (fun _ _ => rfl)
      · rw [List.length_set, List.length_dropLast, List.length_set, heloc]
        exact hjlt2
      · refine ⟨e.time, ?_⟩
        have hd2len : (((q.data.set e.loc (q.data.getLast hne)).dropLast).set e.loc
            (withLoc (q.data.getLast hne) e.loc)).length = q.data.length - 1 := by
          rw [List.length_set, List.length_dropLast, List.length_set]
        have hd1len : ((q.data.set e.loc (q.data.getLast hne)).dropLast).length
            = q.data.length - 1 := by
          rw [List.length_dropLast, List.length_set]
        have hpt : ∀ k, k < q.data.length - 1 →
            (if k = e.loc then e.time
              else timeAt EagerEntry.time
                ((((q.data.set e.loc (q.data.getLast hne)).dropLast).set e.loc
                  (withLoc (q.data.getLast hne) e.loc))) k) =
            timeAt EagerEntry.time q.data.dropLast k := by
          intro k hk
          by_cases hkj : k = e.loc
          · rw [if_pos hkj, hkj, heloc]
            rw [timeAt_dropLast _ q.data j hjlt2]
            unfold timeAt
            rw [he]
          · rw [if_neg hkj]
            rw [timeAt_set _ _ e.loc _ (by rw [hd1len, ← heloc] at *; omega) k, if_neg hkj]
            rw [timeAt_dropLast _ _ k (by rw [List.length_set]; exact hk)]
            rw [timeAt_set _ _ e.loc _ (by rw [← heloc] at hjlt; exact hjlt) k, if_neg hkj]
            rw [timeAt_dropLast _ _ k hk]
        intro i hi h1i
        rw [hd2len] at hi
        dsimp only
        rw [hpt i hi, hpt ((i - 1) / 2) (by omega)]
        have hdl := hOrd_dropLast EagerEntry.time q.data h1
        exact hdl i (by rw [List.length_dropLast]; exact hi) h1i
    · -- coherence
      apply Coh_hfix
      rw [Coh_iff]
      intro k y hy
      by_cases hkj : k = e.loc
      · subst hkj
        rw [List.getElem?_set, if_pos rfl] at hy
        rw [if_pos (by rw [List.length_dropLast, List.length_set, heloc]; exact hjlt2)] at hy
        cases hy
        rfl
      · rw [List.getElem?_set, if_neg (fun hc => hkj hc.symm)] at hy
        rw [List.dropLast_eq_take, List.getElem?_take] at hy
        by_cases hk : k < (q.data.set e.loc (q.data.getLast hne)).length - 1
        · rw [if_pos hk] at hy
          rw [List.getElem?_set, if_neg (by rw [heloc]; intro hc; exact hkj (by rw [heloc, hc]))] at hy
          exact (Coh_iff q.data).mp h2 k y hy
        · rw [if_neg hk] at hy
          exact Option.noConfusion hy
    · -- pair bookkeeping
      have hmapd2 : pairsE ((((q.data.set e.loc (q.data.getLast hne)).dropLast).set e.loc
          (withLoc (q.data.getLast hne) e.loc))) =
          ((pairsE q.data).set j
            ((q.data.getLast hne).time, (q.data.getLast hne).payload)).dropLast := by
        unfold pairsE
        rw [List.map_set]
        simp only [withLoc_time, withLoc_payload]
        have hstep : ((q.data.set e.loc (q.data.getLast hne)).dropLast).map
            (fun y => (y.time, y.payload)) =
            ((q.data.set e.loc (q.data.getLast hne)).map
              (fun y => (y.time, y.payload))).dropLast := by
          rw [List.map_dropLast]
        rw [hstep, List.map_set]
        rw [set_self_of_getElem?]
        · rw [heloc]
        · rw [List.dropLast_eq_take, List.getElem?_take]
          rw [if_pos (by rw [List.length_set, List.length_map]; rw [heloc]; exact hjlt2)]
          rw [List.getElem?_set, if_pos rfl,
            if_pos (by rw [List.length_map, heloc]; exact hjlt)]
      have hkey := cons_set_getLast_dropLast_perm_at (pairsE q.data) j
        (e.time, e.payload)
        (by unfold pairsE; rw [List.getElem?_map, he]; rfl)
        (by unfold pairsE; rw [List.length_map]; exact hjlt2)
        ((q.data.getLast hne).time, (q.data.getLast hne).payload)
        (by unfold pairsE; rw [List.getLast?_map, hlast]; rfl)
      refine List.Perm.trans (List.Perm.cons _ ?_) hkey
      have hfp : (pairsE (hfix EagerEntry.time withLoc
          (((q.data.set e.loc (q.data.getLast hne)).dropLast).set e.loc
            (withLoc (q.data.getLast hne) e.loc)) e.loc)).Perm
          (pairsE (((q.data.set e.loc (q.data.getLast hne)).dropLast).set e.loc
            (withLoc (q.data.getLast hne) e.loc))) :=
        hfix_map_perm EagerEntry.time withLoc (fun y => (y.time, y.payload))
          (fun _ _ => rfl) _ _
      rw [hmapd2] at hfp
      exact hfp
    · rw [length_hfix, List.length_set, List.length_dropLast, List.length_set]

/-- Full characterisation of a successful `EagerQueue::reschedule` given
heap order and slot coherence. -/
theorem reschedule_char (q : EagerQueue T ID) (id : ID) (nt : ℚ) (hmem : id ∈ q.m)
    (h1 : hOrd EagerEntry.time q.data) (h2 : Coh q.data)
    (j : ℕ) (hlk : lookupIdx (fun e => decide (idf e.payload = id)) q.data = some j) :
    ∃ e, q.data[j]? = some e ∧ idf e.payload = id ∧
      reschedule idf q id nt = .ok
        ⟨hfix EagerEntry.time withLoc (q.data.set j { e with time := nt }) e.loc, q.m⟩ ∧
      hOrd EagerEntry.time
        (hfix EagerEntry.time withLoc (q.data.set j { e with time := nt }) e.loc) ∧
      Coh (hfix EagerEntry.time withLoc (q.data.set j { e with time := nt }) e.loc) ∧
      (idsE idf (hfix EagerEntry.time withLoc (q.data.set j { e with time := nt }) e.loc)).Perm
        (idsE idf q.data) ∧
      (pairsE (hfix EagerEntry.time withLoc (q.data.set j { e with time := nt }) e.loc)).Perm
        ((nt, e.payload) :: pairsE (q.data.eraseIdx j)) ∧
      (hfix EagerEntry.time withLoc (q.data.set j { e with time := nt }) e.loc).length
        = q.data.length := by
  obtain ⟨hjlt, e, he, hpe⟩ := lookupIdx_spec _ q.data j hlk
  rw [decide_eq_true_eq] at hpe
  have heloc : e.loc = j := (Coh_iff q.data).mp h2 j e he
  have hsetlen : (q.data.set j { e with time := nt }).length = q.data.length :=
    List.length_set ..
  refine ⟨e, he, hpe, ?_, ?_, ?_, ?_, ?_, ?_⟩
  · unfold reschedule
    rw [if_pos hmem]
    simp only [hlk, he]
  · apply hfix_restore EagerEntry.time withLoc (fun _ _ => rfl)
    · rw [hsetlen, heloc]
      exact hjlt
    · refine ⟨e.time, ?_⟩
      have hpt : ∀ k,
          (if k = e.loc then e.time
            else timeAt EagerEntry.time (q.data.set j { e with time := nt }) k) =
          timeAt EagerEntry.time q.data k := by
        intro k
        by_cases hk : k = e.loc
        · rw [if_pos hk, hk, heloc]
          unfold timeAt
          rw [he]
        · rw [if_neg hk]
          rw [timeAt_set _ _ j _ hjlt k,
            if_neg (fun hc => hk (hc.trans heloc.symm))]
      intro i hi h1i
      dsimp only
      rw [hsetlen] at hi
      rw [hpt i, hpt ((i - 1) / 2)]
      exact h1 i hi h1i
  · apply Coh_hfix
    exact Coh_set _ j _ h2 heloc
  · have hset : idsE idf (q.data.set j { e with time := nt }) = idsE idf q.data := by
      unfold idsE
      rw [List.map_set]
      exact set_self_of_getElem? _ j _ (by rw [List.getElem?_map, he]; rfl)
    have hfp : (idsE idf (hfix EagerEntry.time withLoc
        (q.data.set j { e with time := nt }) e.loc)).Perm
        (idsE idf (q.data.set j { e with time := nt })) :=
      hfix_map_perm EagerEntry.time withLoc (fun y => idf y.payload) (fun _ _ => rfl) _ _
    rw [hset] at hfp
    exact hfp
  · have hfp : (pairsE (hfix EagerEntry.time withLoc
        (q.data.set j { e with time := nt }) e.loc)).Perm
        (pairsE (q.data.set j { e with time := nt })) :=
      hfix_map_perm EagerEntry.time withLoc (fun y => (y.time, y.payload)) (fun _ _ => rfl) _ _
    refine hfp.trans ?_
    have hdec : q.data.set j { e with time := nt } =
        q.data.take j ++ { e with time := nt } :: q.data.drop (j + 1) := by
      rw [List.set_eq_take_append_cons_drop, if_pos hjlt]
    have herase : q.data.eraseIdx j = q.data.take j ++ q.data.drop (j + 1) :=
      List.eraseIdx_eq_take_drop_succ ..
    rw [hdec, herase]
    unfold pairsE
    rw [List.map_append, List.map_cons, List.map_append]
    exact List.perm_middle
  · rw [length_hfix, hsetlen]

end EagerQueue

end EagerSpec

section Traces

variable {T ID : Type} [DecidableEq ID] (idf : T → ID)

/-- External operations common to both queue variants.  `reschedule` exists
only on the eager variant and is a no-op on the lazy one. -/
inductive Op (T ID : Type) where
  | push (time : ℚ) (x : T)
  | pop
  | remove (id : ID)
  | reschedule (id : ID) (time : ℚ)

/-- One operation applied to a lazy queue; a failed call (an `assert` or a
thrown exception) leaves the state unchanged. -/
def lazyStep (q : LazyQueue T ID) : Op T ID → LazyQueue T ID
  | .push t x =>
    match LazyQueue.push idf q t x with
    | .ok q' => q'
    | .error _ => q
  | .pop =>
    match LazyQueue.pop idf q with
    | .ok (_, q') => q'
    | .error _ => q
  | .remove id =>
    match LazyQueue.remove idf q id with
    | .ok q' => q'
    | .error _ => q
  | .reschedule _ _ => q

/-- Run a trace of operations on an initially empty lazy queue. -/
def runLazy (ops : List (Op T ID)) : LazyQueue T ID :=
  ops.foldl (lazyStep idf) LazyQueue.empty

/-- One operation applied to an eager queue; failed calls leave the state
unchanged. -/
def eagerStep (q : EagerQueue T ID) : Op T ID → EagerQueue T ID
  | .push t x =>
    match EagerQueue.push idf q t x with
    | .ok q' => q'
    | .error _ => q
  | .pop =>
    match EagerQueue.pop idf q with
    | .ok (_, q') => q'
    | .error _ => q
  | .remove id =>
    match EagerQueue.remove idf q id with
    | .ok q' => q'
    | .error _ => q
  | .reschedule id t =>
    match EagerQueue.reschedule idf q id t with
    | .ok q' => q'
    | .error _ => q

/-- Run a trace of operations on an initially empty eager queue. -/
def runEager (ops : List (Op T ID)) : EagerQueue T ID :=
  ops.foldl (eagerStep idf) EagerQueue.empty

/-- Repeatedly pop the lazy queue until it reports empty, collecting the
returned (time, payload) values; fuel bounds the number of iterations. -/
def lazyDrainAux : ℕ → LazyQueue T ID → List (ℚ × T)
  | 0, _ => []
  | fuel + 1, q =>
    match LazyQueue.pop idf q with
    | .error _ => []
    | .ok (v, q') => v :: lazyDrainAux fuel q'

/-- The sequence of values delivered by repeatedly popping the lazy queue
(each successful pop shrinks the backing array, so its length is enough
fuel). -/
def lazyDrain (q : LazyQueue T ID) : List (ℚ × T) :=
  lazyDrainAux idf q.data.length q

/-- Repeatedly pop the eager queue, collecting the returned values. -/
def eagerDrainAux : ℕ → EagerQueue T ID → List (ℚ × T)
  | 0, _ => []
  | fuel + 1, q =>
    match EagerQueue.pop idf q with
    | .error _ => []
    | .ok (v, q') => v :: eagerDrainAux fuel q'

/-- The sequence of values delivered by repeatedly popping the eager
queue. -/
def eagerDrain (q : EagerQueue T ID) : List (ℚ × T) :=
  eagerDrainAux idf q.data.length q

theorem LazyQueue.pop_nil_err (q : LazyQueue T ID) (h : q.data = []) :
    ∃ err, LazyQueue.pop idf q = .error err := by
  unfold LazyQueue.pop
  rw [h]
  rw [show (([] : List (LazyEntry T)).length) = 0 from rfl, popAux_zero_fuel]
  by_cases hsz : q.size = 0
  · rw [if_pos hsz]
    exact ⟨_, rfl⟩
  · rw [if_neg hsz]
    exact ⟨_, rfl⟩

theorem lazyDrainAux_succ (fuel : ℕ) (q : LazyQueue T ID) (v : ℚ × T)
    (q' : LazyQueue T ID) (h : LazyQueue.pop idf q = .ok (v, q')) :
    lazyDrainAux idf (fuel + 1) q = v :: lazyDrainAux idf fuel q' := by
  conv_lhs => unfold lazyDrainAux
  simp only [h]

theorem eagerDrainAux_succ (fuel : ℕ) (q : EagerQueue T ID) (v : ℚ × T)
    (q' : EagerQueue T ID) (h : EagerQueue.pop idf q = .ok (v, q')) :
    eagerDrainAux idf (fuel + 1) q = v :: eagerDrainAux idf fuel q' := by
  conv_lhs => unfold eagerDrainAux
  simp only [h]

theorem lazyDrainAux_congr : ∀ (n : ℕ) (q : LazyQueue T ID) (f1 f2 : ℕ),
    q.data.length = n → n ≤ f1 → n ≤ f2 →
    lazyDrainAux idf f1 q = lazyDrainAux idf f2 q := by
  intro n
  induction n using Nat.strong_induction_on with
  | _ n ih =>
    intro q f1 f2 hlen h1 h2
    have herrcase : ∀ f, q.data = [] → lazyDrainAux idf f q = [] := by
      intro f hnil
      cases f with
      | zero => rfl
      | succ m =>
        obtain ⟨err, herr⟩ := LazyQueue.pop_nil_err idf q hnil
        unfold lazyDrainAux
        rw [herr]
    cases f1 with
    | zero =>
      have hnil : q.data = [] := List.eq_nil_of_length_eq_zero (by omega)
      rw [herrcase 0 hnil, herrcase f2 hnil]
    | succ k1 =>
      cases f2 with
      | zero =>
        have hnil : q.data = [] := List.eq_nil_of_length_eq_zero (by omega)
        rw [herrcase (k1 + 1) hnil, herrcase 0 hnil]
      | succ k2 =>
        cases heq : LazyQueue.pop idf q with
        | error err =>
          unfold lazyDrainAux
          simp only [heq]
        | ok r =>
          obtain ⟨v, q'⟩ := r
          have hlt := LazyQueue.popAux_ok_length idf q.data.length q.data q.size q.m v q' heq
          rw [lazyDrainAux_succ idf k1 q v q' heq, lazyDrainAux_succ idf k2 q v q' heq,
            ih q'.data.length (by omega) q' k1 k2 rfl (by omega) (by omega)]

theorem eagerDrainAux_congr : ∀ (n : ℕ) (q : EagerQueue T ID) (f1 f2 : ℕ),
    q.data.length = n → n ≤ f1 → n ≤ f2 →
    eagerDrainAux idf f1 q = eagerDrainAux idf f2 q := by
  intro n
  induction n using Nat.strong_induction_on with
  | _ n ih =>
    intro q f1 f2 hlen h1 h2
    have hoklen : ∀ v q', EagerQueue.pop idf q = .ok (v, q') →
        q'.data.length + 1 = q.data.length := by
      intro v q' h
      obtain ⟨data, m⟩ := q
      cases data with
      | nil => exact Except.noConfusion h
      | cons top rest =>
        simp only [EagerQueue.pop, Except.ok.injEq, Prod.mk.injEq] at h
        obtain ⟨h1', h2'⟩ := h
        subst h2'
        show (heapPopRest EagerEntry.time withLoc (top :: rest)).length + 1
          = (top :: rest).length
        rw [length_heapPopRest]
        simp
    have herrcase : ∀ f, q.data = [] → eagerDrainAux idf f q = [] := by
      intro f hnil
      cases f with
      | zero => rfl
      | succ m =>
        unfold eagerDrainAux
        rw [EagerQueue.pop_empty idf q hnil]
    cases f1 with
    | zero =>
      have hnil : q.data = [] := List.eq_nil_of_length_eq_zero (by omega)
      rw [herrcase 0 hnil, herrcase f2 hnil]
    | succ k1 =>
      cases f2 with
      | zero =>
        have hnil : q.data = [] := List.eq_nil_of_length_eq_zero (by omega)
        rw [herrcase (k1 + 1) hnil, herrcase 0 hnil]
      | succ k2 =>
        cases heq : EagerQueue.pop idf q with
        | error err =>
          unfold eagerDrainAux
          simp only [heq]
        | ok r =>
          obtain ⟨v, q'⟩ := r
          have hlt := hoklen v q' heq
          rw [eagerDrainAux_succ idf k1 q v q' heq, eagerDrainAux_succ idf k2 q v q' heq,
            ih q'.data.length (by omega) q' k1 k2 rfl (by omega) (by omega)]

/-- The lazy drain is a permutation of the live pairs and is sorted by
time (non-decreasing). -/
theorem lazyDrain_spec : ∀ (n : ℕ) (q : LazyQueue T ID), q.data.length ≤ n →
    LazyInv idf q →
    (lazyDrain idf q).Perm (livePairs q.data) ∧
    List.Pairwise (fun a b : ℚ × T => a.1 ≤ b.1) (lazyDrain idf q) := by
  intro n
  induction n with
  | zero =>
    intro q hlen hinv
    have hnil : q.data = [] := List.eq_nil_of_length_eq_zero (by omega)
    have hdrain : lazyDrain idf q = [] := by
      unfold lazyDrain
      rw [hnil]
      rfl
    rw [hdrain, hnil]
    exact ⟨List.Perm.refl _, List.Pairwise.nil⟩
  | succ n ih =>
    intro q hlen hinv
    by_cases hsz : q.size = 0
    · have herr := LazyQueue.pop_sz_zero idf q hsz
      have hlp : livePairs q.data = [] := by
        obtain ⟨_, h2, _, _⟩ := hinv
        exact (countLive_eq_zero_iff q.data).mp (by omega)
      have hdrain : lazyDrain idf q = [] := by
        unfold lazyDrain
        cases hq : q.data.length with
        | zero => rfl
        | succ k =>
          unfold lazyDrainAux
          rw [herr]
      rw [hdrain, hlp]
      exact ⟨List.Perm.refl _, List.Pairwise.nil⟩
    · obtain ⟨t, x, q', heq, hinv', hperm, hmin, hlt⟩ :=
        LazyQueue.pop_spec idf q hinv (by omega)
      have hdrain : lazyDrain idf q = (t, x) :: lazyDrain idf q' := by
        cases hq : q.data.length with
        | zero => rw [hq] at hlt; omega
        | succ k =>
          show lazyDrainAux idf q.data.length q
            = (t, x) :: lazyDrainAux idf q'.data.length q'
          rw [hq, lazyDrainAux_succ idf k q (t, x) q' heq,
            lazyDrainAux_congr idf q'.data.length q' k q'.data.length rfl
              (by omega) (le_refl _)]
      obtain ⟨ihperm, ihsort⟩ := ih q' (by omega) hinv'
      constructor
      · rw [hdrain]
        exact (List.Perm.cons (t, x) ihperm).trans hperm.symm
      · rw [hdrain, List.pairwise_cons]
        refine ⟨?_, ihsort⟩
        intro p hp
        exact hmin p (ihperm.mem_iff.mp hp)

/-- The eager drain is a permutation of the stored pairs and is sorted by
time (non-decreasing). -/
theorem eagerDrain_spec : ∀ (n : ℕ) (q : EagerQueue T ID), q.data.length ≤ n →
    EagerInv idf q →
    (eagerDrain idf q).Perm (pairsE q.data) ∧
    List.Pairwise (fun a b : ℚ × T => a.1 ≤ b.1) (eagerDrain idf q) := by
  intro n
  induction n with
  | zero =>
    intro q hlen hinv
    have hnil : q.data = [] := List.eq_nil_of_length_eq_zero (by omega)
    have hdrain : eagerDrain idf q = [] := by
      unfold eagerDrain
      rw [hnil]
      rfl
    rw [hdrain, hnil]
    exact ⟨List.Perm.refl _, List.Pairwise.nil⟩
  | succ n ih =>
    intro q hlen hinv
    by_cases hd : q.data = []
    · have hdrain : eagerDrain idf q = [] := by
        unfold eagerDrain
        cases hq : q.data.length with
        | zero => rfl
        | succ k =>
          unfold eagerDrainAux
          rw [EagerQueue.pop_empty idf q hd]
      rw [hdrain, hd]
      exact ⟨List.Perm.refl _, List.Pairwise.nil⟩
    · obtain ⟨t, x, q', heq, hinv', hperm, hmin, hlen'⟩ :=
        EagerQueue.pop_specE idf q hinv hd
      have hne0 : q.data.length ≠ 0 := by
        intro h0
        exact hd (List.eq_nil_of_length_eq_zero h0)
      have hdrain : eagerDrain idf q = (t, x) :: eagerDrain idf q' := by
        cases hq : q.data.length with
        | zero => exact absurd hq hne0
        | succ k =>
          show eagerDrainAux idf q.data.length q
            = (t, x) :: eagerDrainAux idf q'.data.length q'
          rw [hq, eagerDrainAux_succ idf k q (t, x) q' heq,
            eagerDrainAux_congr idf q'.data.length q' k q'.data.length rfl
              (by omega) (le_refl _)]
      obtain ⟨ihperm, ihsort⟩ := ih q' (by omega) hinv'
      constructor
      · rw [hdrain]
        exact (List.Perm.cons (t, x) ihperm).trans hperm.symm
      · rw [hdrain, List.pairwise_cons]
        refine ⟨?_, ihsort⟩
        intro p hp
        exact hmin p (ihperm.mem_iff.mp hp)

theorem LazyInv_empty : LazyInv idf (LazyQueue.empty : LazyQueue T ID) :=
  ⟨hOrd_nil _, rfl, List.Perm.refl _, List.nodup_nil⟩

theorem EagerInv_empty : EagerInv idf (EagerQueue.empty : EagerQueue T ID) :=
  ⟨hOrd_nil _, fun i h => absurd h (by simp [EagerQueue.empty]),
    List.Perm.refl _, List.nodup_nil⟩

/-- Every operation step preserves the structural invariants of the lazy
queue. -/
theorem lazyStep_inv (q : LazyQueue T ID) (op : Op T ID) (h : LazyInv idf q) :
    LazyInv idf (lazyStep idf q op) := by
  cases op with
  | push t x =>
    by_cases hmem : idf x ∈ q.m
    · simp only [lazyStep, LazyQueue.push_dup idf q t x hmem]
      exact h
    · simp only [lazyStep, LazyQueue.push_ok idf q t x hmem]
      exact (LazyQueue.push_inv idf q t x hmem h).1
  | pop =>
    by_cases hsz : q.size = 0
    · simp only [lazyStep, LazyQueue.pop_sz_zero idf q hsz]
      exact h
    · obtain ⟨t, x, q', heq, hinv', _, _, _⟩ :=
        LazyQueue.pop_spec idf q h (by omega)
      simp only [lazyStep, heq]
      exact hinv'
  | remove id =>
    by_cases hmem : id ∈ q.m
    · obtain ⟨j, e, _, _, _, heq, hinv', _⟩ := LazyQueue.remove_inv idf q id h hmem
      simp only [lazyStep, heq]
      exact hinv'
    · simp only [lazyStep, LazyQueue.remove_notFound idf q id hmem]
      exact h
  | reschedule id t => exact h

/-- On a present ID the eager identity index produces a slot index. -/
theorem eager_lookup_some (q : EagerQueue T ID) (id : ID)
    (h3 : q.m.Perm (idsE idf q.data)) (hmem : id ∈ q.m) :
    ∃ j, lookupIdx (fun e => decide (idf e.payload = id)) q.data = some j := by
  have hin : id ∈ idsE idf q.data := h3.mem_iff.mp hmem
  obtain ⟨e, he, hid⟩ := List.mem_map.mp hin
  have := lookupIdx_isSome_of_mem (fun e => decide (idf e.payload = id)) q.data e he
    (by rw [decide_eq_true_eq]; exact hid)
  cases hlk : lookupIdx (fun e => decide (idf e.payload = id)) q.data with
  | none => rw [hlk] at this; exact absurd this (by simp)
  | some j => exact ⟨j, rfl⟩

/-- Success and full invariant preservation of `EagerQueue::remove` on a
present ID. -/
theorem EagerQueue.remove_invE (q : EagerQueue T ID) (id : ID) (h : EagerInv idf q)
    (hmem : id ∈ q.m) :
    ∃ (e : EagerEntry T) (d' : List (EagerEntry T)),
      remove idf q id = .ok ⟨d', q.m.erase id⟩ ∧ idf e.payload = id ∧
      EagerInv idf (⟨d', q.m.erase id⟩ : EagerQueue T ID) ∧
      ((e.time, e.payload) :: pairsE d').Perm (pairsE q.data) ∧
      d'.length = q.data.length - 1 := by
  obtain ⟨h1, h2, h3, h4⟩ := h
  obtain ⟨j, hlk⟩ := eager_lookup_some idf q id h3 hmem
  obtain ⟨e, d', hje, hid, heq, hord', hcoh', hperm, hlen⟩ :=
    EagerQueue.remove_char idf q id hmem h1 h2 j hlk
  have hidperm : (idf e.payload :: idsE idf d').Perm (idsE idf q.data) := by
    have := hperm.map (fun p : ℚ × T => idf p.2)
    rw [idsE_eq_map_pairsE, idsE_eq_map_pairsE]
    simpa using this
  rw [hid] at hidperm
  have hnd : (id :: idsE idf d').Nodup := hidperm.symm.nodup_iff.mp h4
  refine ⟨e, d', heq, hid, ⟨hord', hcoh', ?_, (List.nodup_cons.mp hnd).2⟩, hperm, hlen⟩
  calc (q.m.erase id).Perm ((id :: idsE idf d').erase id) := (hidperm.trans h3.symm).symm.erase id
    _ = idsE idf d' := by rw [List.erase_cons_head]

/-- Success and full invariant preservation of `EagerQueue::reschedule` on a
present ID. -/
theorem EagerQueue.reschedule_inv (q : EagerQueue T ID) (id : ID) (nt : ℚ)
    (h : EagerInv idf q) (hmem : id ∈ q.m) :
    ∃ q', reschedule idf q id nt = .ok q' ∧ EagerInv idf q' := by
  obtain ⟨h1, h2, h3, h4⟩ := h
  obtain ⟨j, hlk⟩ := eager_lookup_some idf q id h3 hmem
  obtain ⟨e, hje, hid, heq, hord', hcoh', hids, hpairs, hlen⟩ :=
    EagerQueue.reschedule_char idf q id nt hmem h1 h2 j hlk
  exact ⟨_, heq, hord', hcoh', h3.trans hids.symm, hids.nodup_iff.mpr h4⟩

/-- Every operation step preserves the structural invariants of the eager
queue. -/
theorem eagerStep_inv (q : EagerQueue T ID) (op : Op T ID) (h : EagerInv idf q) :
    EagerInv idf (eagerStep idf q op) := by
  cases op with
  | push t x =>
    by_cases hmem : idf x ∈ q.m
    · simp only [eagerStep, EagerQueue.push_dupE idf q t x hmem]
      exact h
    · simp only [eagerStep, EagerQueue.push_okE idf q t x hmem]
      exact (EagerQueue.push_invE idf q t x hmem h).1
  | pop =>
    by_cases hd : q.data = []
    · simp only [eagerStep, EagerQueue.pop_empty idf q hd]
      exact h
    · obtain ⟨t, x, q', heq, hinv', _, _, _⟩ := EagerQueue.pop_specE idf q h hd
      simp only [eagerStep, heq]
      exact hinv'
  | remove id =>
    by_cases hmem : id ∈ q.m
    · obtain ⟨e, d', heq, _, hinv', _, _⟩ := EagerQueue.remove_invE idf q id h hmem
      simp only [eagerStep, heq]
      exact hinv'
    · simp only [eagerStep, EagerQueue.remove_notFoundE idf q id hmem]
      exact h
  | reschedule id t =>
    by_cases hmem : id ∈ q.m
    · obtain ⟨q', heq, hinv'⟩ := EagerQueue.reschedule_inv idf q id t h hmem
      simp only [eagerStep, heq]
      exact hinv'
    · simp only [eagerStep, EagerQueue.reschedule_notFound idf q id t hmem]
      exact h

theorem foldl_lazyStep_inv (ops : List (Op T ID)) :
    ∀ q, LazyInv idf q → LazyInv idf (ops.foldl (lazyStep idf) q) := by
  induction ops with
  | nil => intro q hq; exact hq
  | cons op rest ih => intro q hq; exact ih _ (lazyStep_inv idf q op hq)

theorem runLazy_inv (ops : List (Op T ID)) : LazyInv idf (runLazy idf ops) :=
  foldl_lazyStep_inv idf ops _ (LazyInv_empty idf)

theorem foldl_eagerStep_inv (ops : List (Op T ID)) :
    ∀ q, EagerInv idf q → EagerInv idf (ops.foldl (eagerStep idf) q) := by
  induction ops with
  | nil => intro q hq; exact hq
  | cons op rest ih => intro q hq; exact ih _ (eagerStep_inv idf q op hq)

theorem runEager_inv (ops : List (Op T ID)) : EagerInv idf (runEager idf ops) :=
  foldl_eagerStep_inv idf ops _ (EagerInv_empty idf)

/-- Traces mentioning only push and remove (the interleavings considered by
the drain cross-check). -/
def isPushRemove : Op T ID → Bool
  | .push _ _ => true
  | .remove _ => true
  | .pop => false
  | .reschedule _ _ => false

/-- The IDs of a reference collection of surviving pairs. -/
def survKeys (acc : List (ℚ × T)) : List ID :=
  acc.map (fun p => idf p.2)

/-- Reference semantics of one operation on the collection of surviving
(time, payload) pairs: push appends if the ID is fresh, remove deletes by
ID, anything else leaves the collection alone. -/
def survStep (acc : List (ℚ × T)) : Op T ID → List (ℚ × T)
  | .push t x => if idf x ∈ survKeys idf acc then acc else acc ++ [(t, x)]
  | .remove id => acc.filter (fun p => ! decide (idf p.2 = id))
  | .pop => acc
  | .reschedule _ _ => acc

/-- The pairs surviving a push/remove trace. -/
def survivors (ops : List (Op T ID)) : List (ℚ × T) :=
  ops.foldl (survStep idf) []

theorem filter_key_perm (acc l' : List (ℚ × T)) (p : ℚ × T) (id : ID)
    (h : acc.Perm (p :: l')) (hid : idf p.2 = id)
    (hnd : (acc.map (fun r => idf r.2)).Nodup) :
    (acc.filter (fun r => ! decide (idf r.2 = id))).Perm l' := by
  have hnd' : (id :: l'.map (fun r => idf r.2)).Nodup := by
    have := (h.map (fun r => idf r.2)).nodup_iff.mp hnd
    simpa [hid] using this
  have hnotin : ∀ r ∈ l', ¬ idf r.2 = id := by
    intro r hr hrid
    exact (List.nodup_cons.mp hnd').1 (List.mem_map.mpr ⟨r, hr, hrid⟩)
  refine (h.filter _).trans ?_
  rw [List.filter_cons_of_neg (by simp [hid]), List.filter_eq_self.mpr ?_]
  intro r hr
  simp [hnotin r hr]

/-- Correspondence between the lazy queue's live pairs and the reference
survivor list, along any push/remove trace. -/
theorem lazy_surv_corr : ∀ (ops : List (Op T ID)) (q : LazyQueue T ID)
    (acc : List (ℚ × T)),
    (∀ op ∈ ops, isPushRemove op = true) →
    LazyInv idf q →
    q.m.Perm (survKeys idf acc) →
    (livePairs q.data).Perm acc →
    (livePairs (ops.foldl (lazyStep idf) q).data).Perm
      (ops.foldl (survStep idf) acc) := by
  intro ops
  induction ops with
  | nil =>
    intro q acc hops hinv hm hp
    exact hp
  | cons op rest ih =>
    intro q acc hops hinv hm hp
    have hop := hops op (List.mem_cons_self op rest)
    have hrest : ∀ o ∈ rest, isPushRemove o = true :=
      fun o ho => hops o (List.mem_cons_of_mem op ho)
    rw [List.foldl_cons, List.foldl_cons]
    cases op with
    | pop => exact absurd hop (by simp [isPushRemove])
    | reschedule id t => exact absurd hop (by simp [isPushRemove])
    | push t x =>
      by_cases hmem : idf x ∈ q.m
      · have hmem' : idf x ∈ survKeys idf acc := hm.mem_iff.mp hmem
        have hq : lazyStep idf q (.push t x) = q := by
          simp only [lazyStep, LazyQueue.push_dup idf q t x hmem]
        have ha : survStep idf acc (.push t x) = acc := by
          simp only [survStep, if_pos hmem']
        rw [hq, ha]
        exact ih q acc hrest hinv hm hp
      · have hmem' : idf x ∉ survKeys idf acc := fun hc => hmem (hm.mem_iff.mpr hc)
        have hq : lazyStep idf q (.push t x) =
            { data := heapPush LazyEntry.time keepEntry q.data ⟨t, x, true⟩
              size := q.size + 1
              m := idf x :: q.m } := by
          simp only [lazyStep, LazyQueue.push_ok idf q t x hmem]
        have ha : survStep idf acc (.push t x) = acc ++ [(t, x)] := by
          simp only [survStep, if_neg hmem']
        obtain ⟨hinv', hpush⟩ := LazyQueue.push_inv idf q t x hmem hinv
        rw [hq, ha]
        refine ih _ _ hrest hinv' ?_ ?_
        · show (idf x :: q.m).Perm (survKeys idf (acc ++ [(t, x)]))
          have : survKeys idf (acc ++ [(t, x)]) = survKeys idf acc ++ [idf x] := by
            simp [survKeys]
          rw [this]
          exact ((hm.cons (idf x)).trans
            (List.perm_append_singleton (idf x) (survKeys idf acc)).symm)
        · exact hpush.trans ((hp.cons (t, x)).trans
            (List.perm_append_singleton (t, x) acc).symm)
    | remove id =>
      by_cases hmem : id ∈ q.m
      · obtain ⟨j, e, hje, hex, hid, heq, hinv', hperm⟩ :=
          LazyQueue.remove_inv idf q id hinv hmem
        have hq : lazyStep idf q (.remove id) =
            { data := q.data.set j { e with exist := false }
              size := q.size - 1
              m := q.m.erase id } := by
          simp only [lazyStep, heq]
        have ha : survStep idf acc (.remove id) =
            acc.filter (fun p => ! decide (idf p.2 = id)) := rfl
        have hnd : (acc.map (fun r => idf r.2)).Nodup := by
          have h4 := hinv.2.2.2
          rw [liveIds_eq_map_livePairs] at h4
          exact ((hp.map (fun r => idf r.2)).nodup_iff).mp h4
        have hfil := filter_key_perm idf acc
          (livePairs (q.data.set j { e with exist := false })) (e.time, e.payload)
          id (hp.symm.trans hperm) hid hnd
        rw [hq, ha]
        refine ih _ _ hrest hinv' ?_ hfil.symm
        show (q.m.erase id).Perm
          (survKeys idf (acc.filter (fun p => ! decide (idf p.2 = id))))
        have hmkeys : (q.m.erase id).Perm
            (survKeys idf (livePairs (q.data.set j { e with exist := false }))) := by
          have h3 := hinv.2.2.1
          have hperm' : (livePairs q.data).Perm
              ((e.time, e.payload) :: livePairs (q.data.set j { e with exist := false })) :=
            hperm
          have hkeys : (survKeys idf (livePairs q.data)).Perm
              (id :: survKeys idf (livePairs (q.data.set j { e with exist := false }))) := by
            have := hperm'.map (fun r : ℚ × T => idf r.2)
            simpa [survKeys, hid] using this
          have h3' : q.m.Perm (survKeys idf (livePairs q.data)) := by
            rw [show survKeys idf (livePairs q.data)
              = liveIds idf q.data from (liveIds_eq_map_livePairs idf q.data).symm]
            exact h3
          refine ((h3'.trans hkeys).erase id).trans ?_
          rw [List.erase_cons_head]
        refine hmkeys.trans ?_
        exact (hfil.map (fun r => idf r.2)).symm
      · have hmem' : id ∉ survKeys idf acc := fun hc => hmem (hm.mem_iff.mpr hc)
        have hq : lazyStep idf q (.remove id) = q := by
          simp only [lazyStep, LazyQueue.remove_notFound idf q id hmem]
        have ha : survStep idf acc (.remove id) = acc := by
          show acc.filter (fun p => ! decide (idf p.2 = id)) = acc
          rw [List.filter_eq_self]
          intro r hr
          have : ¬ idf r.2 = id := by
            intro hc
            exact hmem' (List.mem_map.mpr ⟨r, hr, hc⟩)
          simp [this]
        rw [hq, ha]
        exact ih q acc hrest hinv hm hp

/-- Correspondence between the eager queue's stored pairs and the reference
survivor list, along any push/remove trace. -/
theorem eager_surv_corr : ∀ (ops : List (Op T ID)) (q : EagerQueue T ID)
    (acc : List (ℚ × T)),
    (∀ op ∈ ops, isPushRemove op = true) →
    EagerInv idf q →
    q.m.Perm (survKeys idf acc) →
    (pairsE q.data).Perm acc →
    (pairsE (ops.foldl (eagerStep idf) q).data).Perm
      (ops.foldl (survStep idf) acc) := by
  intro ops
  induction ops with
  | nil =>
    intro q acc hops hinv hm hp
    exact hp
  | cons op rest ih =>
    intro q acc hops hinv hm hp
    have hop := hops op (List.mem_cons_self op rest)
    have hrest : ∀ o ∈ rest, isPushRemove o = true :=
      fun o ho => hops o (List.mem_cons_of_mem op ho)
    rw [List.foldl_cons, List.foldl_cons]
    cases op with
    | pop => exact absurd hop (by simp [isPushRemove])
    | reschedule id t => exact absurd hop (by simp [isPushRemove])
    | push t x =>
      by_cases hmem : idf x ∈ q.m
      · have hmem' : idf x ∈ survKeys idf acc := hm.mem_iff.mp hmem
        have hq : eagerStep idf q (.push t x) = q := by
          simp only [eagerStep, EagerQueue.push_dupE idf q t x hmem]
        have ha : survStep idf acc (.push t x) = acc := by
          simp only [survStep, if_pos hmem']
        rw [hq, ha]
        exact ih q acc hrest hinv hm hp
      · have hmem' : idf x ∉ survKeys idf acc := fun hc => hmem (hm.mem_iff.mpr hc)
        have hq : eagerStep idf q (.push t x) =
            { data := heapPush EagerEntry.time withLoc q.data ⟨q.data.length, t, x⟩
              m := idf x :: q.m } := by
          simp only [eagerStep, EagerQueue.push_okE idf q t x hmem]
        have ha : survStep idf acc (.push t x) = acc ++ [(t, x)] := by
          simp only [survStep, if_neg hmem']
        obtain ⟨hinv', hpush⟩ := EagerQueue.push_invE idf q t x hmem hinv
        rw [hq, ha]
        refine ih _ _ hrest hinv' ?_ ?_
        · show (idf x :: q.m).Perm (survKeys idf (acc ++ [(t, x)]))
          have : survKeys idf (acc ++ [(t, x)]) = survKeys idf acc ++ [idf x] := by
            simp [survKeys]
          rw [this]
          exact ((hm.cons (idf x)).trans
            (List.perm_append_singleton (idf x) (survKeys idf acc)).symm)
        · exact hpush.trans ((hp.cons (t, x)).trans
            (List.perm_append_singleton (t, x) acc).symm)
    | remove id =>
      by_cases hmem : id ∈ q.m
      · obtain ⟨e, d', heq, hid, hinv', hperm, hlen⟩ :=
          EagerQueue.remove_invE idf q id hinv hmem
        have hq : eagerStep idf q (.remove id) =
            (⟨d', q.m.erase id⟩ : EagerQueue T ID) := by
          simp only [eagerStep, heq]
        have ha : survStep idf acc (.remove id) =
            acc.filter (fun p => ! decide (idf p.2 = id)) := rfl
        have hnd : (acc.map (fun r => idf r.2)).Nodup := by
          have h4 := hinv.2.2.2
          rw [idsE_eq_map_pairsE] at h4
          exact ((hp.map (fun r => idf r.2)).nodup_iff).mp h4
        have hfil := filter_key_perm idf acc (pairsE d') (e.time, e.payload)
          id (hp.symm.trans hperm.symm) hid hnd
        rw [hq, ha]
        refine ih _ _ hrest hinv' ?_ hfil.symm
        show (q.m.erase id).Perm
          (survKeys idf (acc.filter (fun p => ! decide (idf p.2 = id))))
        have hmkeys : (q.m.erase id).Perm (survKeys idf (pairsE d')) := by
          have h3 := hinv.2.2.1
          have hkeys : (survKeys idf (pairsE q.data)).Perm
              (id :: survKeys idf (pairsE d')) := by
            have := hperm.symm.map (fun r : ℚ × T => idf r.2)
            simpa [survKeys, hid] using this
          have h3' : q.m.Perm (survKeys idf (pairsE q.data)) := by
            rw [show survKeys idf (pairsE q.data)
              = idsE idf q.data from (idsE_eq_map_pairsE idf q.data).symm]
            exact h3
          refine ((h3'.trans hkeys).erase id).trans ?_
          rw [List.erase_cons_head]
        refine hmkeys.trans ?_
        exact (hfil.map (fun r => idf r.2)).symm
      · have hmem' : id ∉ survKeys idf acc := fun hc => hmem (hm.mem_iff.mpr hc)
        have hq : eagerStep idf q (.remove id) = q := by
          simp only [eagerStep, EagerQueue.remove_notFoundE idf q id hmem]
        have ha : survStep idf acc (.remove id) = acc := by
          show acc.filter (fun p => ! decide (idf p.2 = id)) = acc
          rw [List.filter_eq_self]
          intro r hr
          have : ¬ idf r.2 = id := by
            intro hc
            exact hmem' (List.mem_map.mpr ⟨r, hr, hc⟩)
          simp [this]
        rw [hq, ha]
        exact ih q acc hrest hinv hm hp

/-- The live pairs of a lazy run of a push/remove trace are exactly the
reference survivors (as a multiset). -/
theorem runLazy_surv (ops : List (Op T ID))
    (hops : ∀ op ∈ ops, isPushRemove op = true) :
    (livePairs (runLazy idf ops).data).Perm (survivors idf ops) :=
  lazy_surv_corr idf ops LazyQueue.empty [] hops (LazyInv_empty idf)
    (List.Perm.refl _) (List.Perm.refl _)

/-- The stored pairs of an eager run of a push/remove trace are exactly the
reference survivors (as a multiset). -/
theorem runEager_surv (ops : List (Op T ID))
    (hops : ∀ op ∈ ops, isPushRemove op = true) :
    (pairsE (runEager idf ops).data).Perm (survivors idf ops) :=
  eager_surv_corr idf ops EagerQueue.empty [] hops (EagerInv_empty idf)
    (List.Perm.refl _) (List.Perm.refl _)

/-- Two time-sorted arrangements of the same multiset of pairs coincide
when all times are distinct. -/
theorem sorted_perm_nodup_eq : ∀ (l1 l2 : List (ℚ × T)), l1.Perm l2 →
    List.Pairwise (fun a b : ℚ × T => a.1 ≤ b.1) l1 →
    List.Pairwise (fun a b : ℚ × T => a.1 ≤ b.1) l2 →
    (l1.map Prod.fst).Nodup → l1 = l2 := by
  intro l1
  induction l1 with
  | nil =>
    intro l2 h _ _ _
    exact (List.Perm.nil_eq h)
  | cons a t1 ih =>
    intro l2 h hs1 hs2 hnd
    cases l2 with
    | nil => exact absurd (List.Perm.eq_nil h) (by simp)
    | cons b t2 =>
      have hnd' : a.1 ∉ t1.map Prod.fst ∧ (t1.map Prod.fst).Nodup := by
        rw [List.map_cons] at hnd
        exact List.nodup_cons.mp hnd
      have hab : a = b := by
        by_contra hne
        have hbt1 : b ∈ t1 := by
          rcases List.mem_cons.mp (h.mem_iff.mpr (List.mem_cons_self b t2)) with hc | hc
          · exact absurd hc.symm hne
          · exact hc
        have hat2 : a ∈ t2 := by
          rcases List.mem_cons.mp (h.mem_iff.mp (List.mem_cons_self a t1)) with hc | hc
          · exact absurd hc hne
          · exact hc
        have h1 : a.1 ≤ b.1 := (List.pairwise_cons.mp hs1).1 b hbt1
        have h2 : b.1 ≤ a.1 := (List.pairwise_cons.mp hs2).1 a hat2
        exact hnd'.1 (List.mem_map.mpr ⟨b, hbt1, (le_antisymm h1 h2).symm⟩)
      subst hab
      rw [ih t2 h.cons_inv (List.pairwise_cons.mp hs1).2
        (List.pairwise_cons.mp hs2).2 hnd'.2]

/-- The times of the push operations of a trace, in order. -/
def pushTimes : List (Op T ID) → List ℚ
  | [] => []
  | .push t _ :: rest => t :: pushTimes rest
  | .pop :: rest => pushTimes rest
  | .remove _ :: rest => pushTimes rest
  | .reschedule _ _ :: rest => pushTimes rest

theorem surv_times_sublist : ∀ (ops : List (Op T ID)) (acc : List (ℚ × T)),
    ((ops.foldl (survStep idf) acc).map Prod.fst).Sublist
      (acc.map Prod.fst ++ pushTimes ops) := by
  intro ops
  induction ops with
  | nil =>
    intro acc
    rw [show pushTimes ([] : List (Op T ID)) = [] from rfl, List.append_nil]
    exact List.Sublist.refl _
  | cons op rest ih =>
    intro acc
    rw [List.foldl_cons]
    cases op with
    | push t x =>
      rw [show pushTimes (Op.push t x :: rest)
        = t :: pushTimes rest from rfl]
      by_cases hmem : idf x ∈ survKeys idf acc
      · rw [show survStep idf acc (.push t x) = acc from by
          simp only [survStep, if_pos hmem]]
        refine (ih acc).trans ?_
        exact List.Sublist.append_left
          (List.sublist_cons_self t (pushTimes rest)) (acc.map Prod.fst)
      · rw [show survStep idf acc (.push t x) = acc ++ [(t, x)] from by
          simp only [survStep, if_neg hmem]]
        have := ih (acc ++ [(t, x)])
        rw [List.map_append, List.append_assoc] at this
        exact this
    | pop =>
      rw [show survStep idf acc .pop = acc from rfl,
        show pushTimes (Op.pop :: rest) = pushTimes rest from rfl]
      exact ih acc
    | remove id =>
      rw [show pushTimes (Op.remove id :: rest)
        = pushTimes rest from rfl]
      refine (ih _).trans ?_
      exact List.Sublist.append
        (List.Sublist.map Prod.fst (List.filter_sublist acc)) (List.Sublist.refl _)
    | reschedule id t =>
      rw [show survStep idf acc (.reschedule id t) = acc from rfl,
        show pushTimes (Op.reschedule id t :: rest)
          = pushTimes rest from rfl]
      exact ih acc

/-- When all pushed times of a trace are distinct, so are the times of its
survivors. -/
theorem survivors_times_nodup (ops : List (Op T ID))
    (hnd : (pushTimes ops).Nodup) :
    ((survivors idf ops).map Prod.fst).Nodup := by
  have h := surv_times_sublist idf ops []
  rw [show (([] : List (ℚ × T)).map Prod.fst) = [] from rfl, List.nil_append] at h
  exact h.nodup hnd

end Traces

section Claims

/-- Claim C1: starting from the empty queue, after any trace of operations
— in particular any sequence of pushes and pops with distinct IDs — the
sequence of (time, payload) values returned by repeatedly calling pop is
non-decreasing in time, on both the lazy and the eager variant. -/
theorem claim_C1 {T ID : Type} [DecidableEq ID] (idf : T → ID)
    (ops : List (Op T ID)) :
    List.Pairwise (fun a b : ℚ × T => a.1 ≤ b.1)
      (lazyDrain idf (runLazy idf ops)) ∧
    List.Pairwise (fun a b : ℚ × T => a.1 ≤ b.1)
      (eagerDrain idf (runEager idf ops)) :=
  ⟨(lazyDrain_spec idf (runLazy idf ops).data.length (runLazy idf ops)
      (le_refl _) (runLazy_inv idf ops)).2,
   (eagerDrain_spec idf (runEager idf ops).data.length (runEager idf ops)
      (le_refl _) (runEager_inv idf ops)).2⟩

/-- Claim C2 (code bug): on a queue with zero live entries, lazy pop, lazy
peek and eager pop all fail with EmptyQueueError as specified, but eager
peek performs the unguarded root access `_data[0]` — an out-of-bounds read
— instead of failing with EmptyQueueError. -/
theorem claim_C2 {T ID : Type} [DecidableEq ID] (idf : T → ID)
    (ql : LazyQueue T ID) (qe : EagerQueue T ID)
    (hl : ql.size = 0) (he : qe.data = []) :
    LazyQueue.pop idf ql = .error .emptyQueue ∧
    LazyQueue.peek ql = .error .emptyQueue ∧
    EagerQueue.pop idf qe = .error .emptyQueue ∧
    EagerQueue.peek qe = .error .oob ∧
    EagerQueue.peek qe ≠ .error .emptyQueue := by
  have hpeek : EagerQueue.peek qe = .error .oob := by
    unfold EagerQueue.peek
    rw [he]
  refine ⟨LazyQueue.pop_sz_zero idf ql hl, LazyQueue.peek_sz_zero ql hl,
    EagerQueue.pop_empty idf qe he, hpeek, ?_⟩
  rw [hpeek]
  intro hc
  exact Err.noConfusion (Except.error.inj hc)

theorem claim_C2_witness :
    (LazyQueue.empty : LazyQueue ℕ ℕ).size = 0 ∧
    (EagerQueue.empty : EagerQueue ℕ ℕ).data = [] ∧
    (LazyQueue.pop (fun n : ℕ => n) LazyQueue.empty = .error .emptyQueue ∧
     LazyQueue.peek (LazyQueue.empty : LazyQueue ℕ ℕ) = .error .emptyQueue ∧
     EagerQueue.pop (fun n : ℕ => n) EagerQueue.empty = .error .emptyQueue ∧
     EagerQueue.peek (EagerQueue.empty : EagerQueue ℕ ℕ) = .error .oob ∧
     EagerQueue.peek (EagerQueue.empty : EagerQueue ℕ ℕ) ≠ .error .emptyQueue) :=
  ⟨rfl, rfl, claim_C2 (fun n : ℕ => n) LazyQueue.empty EagerQueue.empty rfl rfl⟩

/-- Claim C5: if the heap array would satisfy heap order with slot `idx`
given some other time value `t0` — i.e. order holds everywhere except
possibly at the pairs involving the one slot whose time a single priority
change rewrote — then `fix(idx)` (sift-down, falling back to sift-up when
no sift-down occurred) restores heap order over the full array. -/
theorem claim_C5 {T : Type} (l : List (EagerEntry T)) (idx : ℕ)
    (hidx : idx < l.length)
    (h : ∃ t0, hOrdF (fun j => if j = idx then t0
      else timeAt EagerEntry.time l j) l.length) :
    hOrd EagerEntry.time (hfix EagerEntry.time withLoc l idx) :=
  hfix_restore EagerEntry.time withLoc (fun _ _ => rfl) l idx hidx h

theorem claim_C5_witness :
    ((1 < ([⟨0, 5, 0⟩, ⟨1, 1, 1⟩, ⟨2, 6, 2⟩] : List (EagerEntry ℕ)).length) ∧
      (∃ t0, hOrdF (fun j => if j = 1 then t0 else timeAt EagerEntry.time
        ([⟨0, 5, 0⟩, ⟨1, 1, 1⟩, ⟨2, 6, 2⟩] : List (EagerEntry ℕ)) j)
        ([⟨0, 5, 0⟩, ⟨1, 1, 1⟩, ⟨2, 6, 2⟩] : List (EagerEntry ℕ)).length)) ∧
    hOrd EagerEntry.time (hfix EagerEntry.time withLoc
      ([⟨0, 5, 0⟩, ⟨1, 1, 1⟩, ⟨2, 6, 2⟩] : List (EagerEntry ℕ)) 1) :=
  ⟨⟨by decide, 7, by decide⟩,
    claim_C5 ([⟨0, 5, 0⟩, ⟨1, 1, 1⟩, ⟨2, 6, 2⟩] : List (EagerEntry ℕ)) 1
      (by decide) ⟨7, by decide⟩⟩

/-- Claim C6 (code bug): eager pop on a queue holding exactly one entry is
NOT in-bounds: after moving the last entry into the root and shrinking, the
write `_data[0]->loc = 0` targets slot 0 of an array of length 0.  The
bounds-checked rendering `popRaw` reports the out-of-bounds access on every
one-entry queue, although the queue is non-empty. -/
theorem claim_C6 {T ID : Type} [DecidableEq ID] (idf : T → ID)
    (e : EagerEntry T) (m : List ID) :
    EagerQueue.popRaw idf (⟨[e], m⟩ : EagerQueue T ID) = .error .oob ∧
    (⟨[e], m⟩ : EagerQueue T ID).data ≠ [] := by
  constructor
  · rfl
  · simp

/-- Claim C7: pushing a payload whose ID is already live fails with
DuplicateKeyError on both variants, and the failed call leaves the queue —
in particular its size — unchanged. -/
theorem claim_C7 {T ID : Type} [DecidableEq ID] (idf : T → ID)
    (ql : LazyQueue T ID) (qe : EagerQueue T ID) (t : ℚ) (x : T)
    (hl : idf x ∈ ql.m) (he : idf x ∈ qe.m) :
    LazyQueue.push idf ql t x = .error .duplicateKey ∧
    EagerQueue.push idf qe t x = .error .duplicateKey ∧
    lazyStep idf ql (.push t x) = ql ∧
    eagerStep idf qe (.push t x) = qe := by
  refine ⟨LazyQueue.push_dup idf ql t x hl, EagerQueue.push_dupE idf qe t x he,
    ?_, ?_⟩
  · simp only [lazyStep, LazyQueue.push_dup idf ql t x hl]
  · simp only [eagerStep, EagerQueue.push_dupE idf qe t x he]

theorem claim_C7_witness :
    ((5 : ℕ) ∈ (⟨[⟨1, 5, true⟩], 1, [5]⟩ : LazyQueue ℕ ℕ).m ∧
     (5 : ℕ) ∈ (⟨[⟨0, 1, 5⟩], [5]⟩ : EagerQueue ℕ ℕ).m) ∧
    (LazyQueue.push (fun n : ℕ => n) (⟨[⟨1, 5, true⟩], 1, [5]⟩ : LazyQueue ℕ ℕ)
        2 5 = .error .duplicateKey ∧
     EagerQueue.push (fun n : ℕ => n) (⟨[⟨0, 1, 5⟩], [5]⟩ : EagerQueue ℕ ℕ)
        2 5 = .error .duplicateKey ∧
     lazyStep (fun n : ℕ => n) (⟨[⟨1, 5, true⟩], 1, [5]⟩ : LazyQueue ℕ ℕ)
        (.push 2 5) = (⟨[⟨1, 5, true⟩], 1, [5]⟩ : LazyQueue ℕ ℕ) ∧
     eagerStep (fun n : ℕ => n) (⟨[⟨0, 1, 5⟩], [5]⟩ : EagerQueue ℕ ℕ)
        (.push 2 5) = (⟨[⟨0, 1, 5⟩], [5]⟩ : EagerQueue ℕ ℕ)) :=
  ⟨⟨by decide, by decide⟩,
    claim_C7 (fun n : ℕ => n) (⟨[⟨1, 5, true⟩], 1, [5]⟩ : LazyQueue ℕ ℕ)
      (⟨[⟨0, 1, 5⟩], [5]⟩ : EagerQueue ℕ ℕ) 2 5 (by decide) (by decide)⟩

/-- Claim C8: remove — and, on the eager variant, reschedule — applied to
an ID that is absent from the identity index (never pushed, or already
removed) fails with NotFoundError, and the failed call leaves the queue —
in particular its size — unchanged. -/
theorem claim_C8 {T ID : Type} [DecidableEq ID] (idf : T → ID)
    (ql : LazyQueue T ID) (qe : EagerQueue T ID) (id : ID) (nt : ℚ)
    (hl : id ∉ ql.m) (he : id ∉ qe.m) :
    LazyQueue.remove idf ql id = .error .notFound ∧
    EagerQueue.remove idf qe id = .error .notFound ∧
    EagerQueue.reschedule idf qe id nt = .error .notFound ∧
    lazyStep idf ql (.remove id) = ql ∧
    eagerStep idf qe (.remove id) = qe ∧
    eagerStep idf qe (.reschedule id nt) = qe := by
  refine ⟨LazyQueue.remove_notFound idf ql id hl,
    EagerQueue.remove_notFoundE idf qe id he,
    EagerQueue.reschedule_notFound idf qe id nt he, ?_, ?_, ?_⟩
  · simp only [lazyStep, LazyQueue.remove_notFound idf ql id hl]
  · simp only [eagerStep, EagerQueue.remove_notFoundE idf qe id he]
  · simp only [eagerStep, EagerQueue.reschedule_notFound idf qe id nt he]

theorem claim_C8_witness :
    ((9 : ℕ) ∉ (⟨[⟨1, 5, true⟩], 1, [5]⟩ : LazyQueue ℕ ℕ).m ∧
     (9 : ℕ) ∉ (⟨[⟨0, 1, 5⟩], [5]⟩ : EagerQueue ℕ ℕ).m) ∧
    (LazyQueue.remove (fun n : ℕ => n) (⟨[⟨1, 5, true⟩], 1, [5]⟩ : LazyQueue ℕ ℕ)
        9 = .error .notFound ∧
     EagerQueue.remove (fun n : ℕ => n) (⟨[⟨0, 1, 5⟩], [5]⟩ : EagerQueue ℕ ℕ)
        9 = .error .notFound ∧
     EagerQueue.reschedule (fun n : ℕ => n) (⟨[⟨0, 1, 5⟩], [5]⟩ : EagerQueue ℕ ℕ)
        9 3 = .error .notFound ∧
     lazyStep (fun n : ℕ => n) (⟨[⟨1, 5, true⟩], 1, [5]⟩ : LazyQueue ℕ ℕ)
        (.remove 9) = (⟨[⟨1, 5, true⟩], 1, [5]⟩ : LazyQueue ℕ ℕ) ∧
     eagerStep (fun n : ℕ => n) (⟨[⟨0, 1, 5⟩], [5]⟩ : EagerQueue ℕ ℕ)
        (.remove 9) = (⟨[⟨0, 1, 5⟩], [5]⟩ : EagerQueue ℕ ℕ) ∧
     eagerStep (fun n : ℕ => n) (⟨[⟨0, 1, 5⟩], [5]⟩ : EagerQueue ℕ ℕ)
        (.reschedule 9 3) = (⟨[⟨0, 1, 5⟩], [5]⟩ : EagerQueue ℕ ℕ)) :=
  ⟨⟨by decide, by decide⟩,
    claim_C8 (fun n : ℕ => n) (⟨[⟨1, 5, true⟩], 1, [5]⟩ : LazyQueue ℕ ℕ)
      (⟨[⟨0, 1, 5⟩], [5]⟩ : EagerQueue ℕ ℕ) 9 3 (by decide) (by decide)⟩

/-- Claim C3: every eager-queue operation (push, pop, remove, reschedule),
applied through `eagerStep` to a state satisfying heap order (I1) and slot
coherence (I2) together with the identity-index invariants, ends in a state
satisfying I1 and I2 again; and the slot-swap helper updates the cached
slot indices of BOTH swapped entries. -/
theorem claim_C3 {T ID : Type} [DecidableEq ID] (idf : T → ID)
    (q : EagerQueue T ID) (op : Op T ID) (h : EagerInv idf q) :
    (hOrd EagerEntry.time (eagerStep idf q op).data ∧
      Coh (eagerStep idf q op).data) ∧
    (∀ (l : List (EagerEntry T)) (i j : ℕ), i < l.length → j < l.length →
      ((hswap withLoc l i j)[i]?).map EagerEntry.loc = some i ∧
      ((hswap withLoc l i j)[j]?).map EagerEntry.loc = some j) := by
  have h' := eagerStep_inv idf q op h
  refine ⟨⟨h'.1, h'.2.1⟩, ?_⟩
  intro l i j hi hj
  constructor
  · rw [getElem?_hswap withLoc l i j i hi hj]
    by_cases hij : i = j
    · rw [if_pos hij]
      simp [withLoc_loc, hij]
    · rw [if_neg hij, if_pos rfl]
      simp [withLoc_loc]
  · rw [getElem?_hswap withLoc l i j j hi hj, if_pos rfl]
    simp [withLoc_loc]

theorem claim_C3_witness :
    EagerInv (fun n : ℕ => n)
      (⟨[⟨0, 1, 5⟩, ⟨1, 2, 7⟩], [5, 7]⟩ : EagerQueue ℕ ℕ) ∧
    ((hOrd EagerEntry.time (eagerStep (fun n : ℕ => n)
        (⟨[⟨0, 1, 5⟩, ⟨1, 2, 7⟩], [5, 7]⟩ : EagerQueue ℕ ℕ) (.push 3 9)).data ∧
      Coh (eagerStep (fun n : ℕ => n)
        (⟨[⟨0, 1, 5⟩, ⟨1, 2, 7⟩], [5, 7]⟩ : EagerQueue ℕ ℕ) (.push 3 9)).data) ∧
     (∀ (l : List (EagerEntry ℕ)) (i j : ℕ), i < l.length → j < l.length →
      ((hswap withLoc l i j)[i]?).map EagerEntry.loc = some i ∧
      ((hswap withLoc l i j)[j]?).map EagerEntry.loc = some j)) :=
  ⟨by decide, claim_C3 (fun n : ℕ => n)
    (⟨[⟨0, 1, 5⟩, ⟨1, 2, 7⟩], [5, 7]⟩ : EagerQueue ℕ ℕ) (.push 3 9) (by decide)⟩

/-- Claim C9: removing a live ID from the lazy queue flips exactly that
entry's liveness flag, erases the ID from the identity index and decrements
the live count; the backing array keeps its length, every other slot is
untouched, and the affected slot keeps its time and payload — no heap
reordering occurs. -/
theorem claim_C9 {T ID : Type} [DecidableEq ID] (idf : T → ID)
    (q : LazyQueue T ID) (id : ID) (h : LazyInv idf q) (hmem : id ∈ q.m) :
    ∃ j e, q.data[j]? = some e ∧ e.exist = true ∧ idf e.payload = id ∧
      LazyQueue.remove idf q id = .ok
        { data := q.data.set j { e with exist := false }
          size := q.size - 1
          m := q.m.erase id } ∧
      (q.data.set j { e with exist := false }).length = q.data.length ∧
      (∀ i, i ≠ j → (q.data.set j { e with exist := false })[i]? = q.data[i]?) ∧
      (q.data.set j { e with exist := false })[j]? =
        some { time := e.time, payload := e.payload, exist := false } := by
  obtain ⟨j, e, hje, hex, hid, heq, _, _⟩ := LazyQueue.remove_inv idf q id h hmem
  refine ⟨j, e, hje, hex, hid, heq, List.length_set .., ?_, ?_⟩
  · intro i hij
    exact List.getElem?_set_ne (Ne.symm hij)
  · exact List.getElem?_set_self (List.getElem?_eq_some_iff.mp hje).1

theorem claim_C9_witness :
    (LazyInv (fun n : ℕ => n)
        (⟨[⟨1, 5, true⟩, ⟨2, 7, true⟩], 2, [5, 7]⟩ : LazyQueue ℕ ℕ) ∧
      (7 : ℕ) ∈ (⟨[⟨1, 5, true⟩, ⟨2, 7, true⟩], 2, [5, 7]⟩ : LazyQueue ℕ ℕ).m) ∧
    (∃ j e, (⟨[⟨1, 5, true⟩, ⟨2, 7, true⟩], 2, [5, 7]⟩ : LazyQueue ℕ ℕ).data[j]?
        = some e ∧ e.exist = true ∧ (fun n : ℕ => n) e.payload = 7 ∧
      LazyQueue.remove (fun n : ℕ => n)
        (⟨[⟨1, 5, true⟩, ⟨2, 7, true⟩], 2, [5, 7]⟩ : LazyQueue ℕ ℕ) 7 = .ok
        { data := (⟨[⟨1, 5, true⟩, ⟨2, 7, true⟩], 2, [5, 7]⟩ : LazyQueue ℕ ℕ).data.set
            j { e with exist := false }
          size := (⟨[⟨1, 5, true⟩, ⟨2, 7, true⟩], 2, [5, 7]⟩ : LazyQueue ℕ ℕ).size - 1
          m := (⟨[⟨1, 5, true⟩, ⟨2, 7, true⟩], 2, [5, 7]⟩ : LazyQueue ℕ ℕ).m.erase 7 } ∧
      ((⟨[⟨1, 5, true⟩, ⟨2, 7, true⟩], 2, [5, 7]⟩ : LazyQueue ℕ ℕ).data.set
          j { e with exist := false }).length
        = (⟨[⟨1, 5, true⟩, ⟨2, 7, true⟩], 2, [5, 7]⟩ : LazyQueue ℕ ℕ).data.length ∧
      (∀ i, i ≠ j →
        ((⟨[⟨1, 5, true⟩, ⟨2, 7, true⟩], 2, [5, 7]⟩ : LazyQueue ℕ ℕ).data.set
            j { e with exist := false })[i]?
          = (⟨[⟨1, 5, true⟩, ⟨2, 7, true⟩], 2, [5, 7]⟩ : LazyQueue ℕ ℕ).data[i]?) ∧
      ((⟨[⟨1, 5, true⟩, ⟨2, 7, true⟩], 2, [5, 7]⟩ : LazyQueue ℕ ℕ).data.set
          j { e with exist := false })[j]?
        = some { time := e.time, payload := e.payload, exist := false }) :=
  ⟨⟨by decide, by decide⟩, claim_C9 (fun n : ℕ => n)
    (⟨[⟨1, 5, true⟩, ⟨2, 7, true⟩], 2, [5, 7]⟩ : LazyQueue ℕ ℕ) 7
    (by decide) (by decide)⟩

/-- Claim C10: under the liveness-accounting invariant the purge loops of
lazy pop and peek terminate: run with fuel equal to the array length they
never exhaust the array (`Err.oob`), they return a live entry when the live
count is positive, and they report the empty queue when it is zero. -/
theorem claim_C10 {T ID : Type} [DecidableEq ID] (idf : T → ID)
    (q : LazyQueue T ID) (h : LazyInv idf q) :
    (0 < q.size →
      (∃ v q', LazyQueue.pop idf q = .ok (v, q')) ∧
      (∃ v q', LazyQueue.peek q = .ok (v, q'))) ∧
    (q.size = 0 →
      LazyQueue.pop idf q = .error .emptyQueue ∧
      LazyQueue.peek q = .error .emptyQueue) ∧
    LazyQueue.pop idf q ≠ .error .oob ∧
    LazyQueue.peek q ≠ .error .oob := by
  by_cases hsz : q.size = 0
  · rw [LazyQueue.pop_sz_zero idf q hsz, LazyQueue.peek_sz_zero q hsz]
    exact ⟨fun hc => absurd hc (by omega), fun _ => ⟨rfl, rfl⟩,
      fun hc => Err.noConfusion (Except.error.inj hc),
      fun hc => Err.noConfusion (Except.error.inj hc)⟩
  · obtain ⟨t, x, q', hpop, _, _, _, _⟩ := LazyQueue.pop_spec idf q h (by omega)
    obtain ⟨v, q'', hpeek⟩ := LazyQueue.peek_spec idf q h (by omega)
    rw [hpop, hpeek]
    exact ⟨fun _ => ⟨⟨(t, x), q', rfl⟩, ⟨v, q'', rfl⟩⟩,
      fun hc => absurd hc hsz,
      fun hc => Except.noConfusion hc, fun hc => Except.noConfusion hc⟩

theorem claim_C10_witness :
    LazyInv (fun n : ℕ => n)
      (⟨[⟨1, 5, false⟩, ⟨2, 7, true⟩], 1, [7]⟩ : LazyQueue ℕ ℕ) ∧
    ((0 < (⟨[⟨1, 5, false⟩, ⟨2, 7, true⟩], 1, [7]⟩ : LazyQueue ℕ ℕ).size →
      (∃ v q', LazyQueue.pop (fun n : ℕ => n)
        (⟨[⟨1, 5, false⟩, ⟨2, 7, true⟩], 1, [7]⟩ : LazyQueue ℕ ℕ) = .ok (v, q')) ∧
      (∃ v q', LazyQueue.peek
        (⟨[⟨1, 5, false⟩, ⟨2, 7, true⟩], 1, [7]⟩ : LazyQueue ℕ ℕ) = .ok (v, q'))) ∧
    ((⟨[⟨1, 5, false⟩, ⟨2, 7, true⟩], 1, [7]⟩ : LazyQueue ℕ ℕ).size = 0 →
      LazyQueue.pop (fun n : ℕ => n)
        (⟨[⟨1, 5, false⟩, ⟨2, 7, true⟩], 1, [7]⟩ : LazyQueue ℕ ℕ)
        = .error .emptyQueue ∧
      LazyQueue.peek (⟨[⟨1, 5, false⟩, ⟨2, 7, true⟩], 1, [7]⟩ : LazyQueue ℕ ℕ)
        = .error .emptyQueue) ∧
    LazyQueue.pop (fun n : ℕ => n)
      (⟨[⟨1, 5, false⟩, ⟨2, 7, true⟩], 1, [7]⟩ : LazyQueue ℕ ℕ) ≠ .error .oob ∧
    LazyQueue.peek (⟨[⟨1, 5, false⟩, ⟨2, 7, true⟩], 1, [7]⟩ : LazyQueue ℕ ℕ)
      ≠ .error .oob) :=
  ⟨by decide, claim_C10 (fun n : ℕ => n)
    (⟨[⟨1, 5, false⟩, ⟨2, 7, true⟩], 1, [7]⟩ : LazyQueue ℕ ℕ) (by decide)⟩

/-- Claim C4 (amended: the pushed times must be pairwise distinct): for
every interleaving of push and remove operations whose push times are
pairwise distinct, the sequences obtained by draining the lazy and the
eager queue coincide, and each one is the time-sorted arrangement of the
surviving (time, payload) pairs. -/
theorem claim_C4 {T ID : Type} [DecidableEq ID] (idf : T → ID)
    (ops : List (Op T ID))
    (hops : ∀ op ∈ ops, isPushRemove op = true)
    (htimes : (pushTimes ops).Nodup) :
    lazyDrain idf (runLazy idf ops) = eagerDrain idf (runEager idf ops) ∧
    (lazyDrain idf (runLazy idf ops)).Perm (survivors idf ops) ∧
    List.Pairwise (fun a b : ℚ × T => a.1 ≤ b.1)
      (lazyDrain idf (runLazy idf ops)) := by
  have hlinv := runLazy_inv idf ops
  have heinv := runEager_inv idf ops
  obtain ⟨hlperm, hlsort⟩ := lazyDrain_spec idf (runLazy idf ops).data.length
    (runLazy idf ops) (le_refl _) hlinv
  obtain ⟨heperm, hesort⟩ := eagerDrain_spec idf (runEager idf ops).data.length
    (runEager idf ops) (le_refl _) heinv
  have hl : (lazyDrain idf (runLazy idf ops)).Perm (survivors idf ops) :=
    hlperm.trans (runLazy_surv idf ops hops)
  have he : (eagerDrain idf (runEager idf ops)).Perm (survivors idf ops) :=
    heperm.trans (runEager_surv idf ops hops)
  have hnd : ((lazyDrain idf (runLazy idf ops)).map Prod.fst).Nodup :=
    ((hl.map Prod.fst).nodup_iff).mpr (survivors_times_nodup idf ops htimes)
  exact ⟨sorted_perm_nodup_eq _ _ (hl.trans he.symm) hlsort hesort hnd,
    hl, hlsort⟩

/-- Counterexample to claim C4 as stated: on the equal-time trace
push(1,0), push(1,1), push(1,2), push(1,3), remove(1) the lazy and eager
variants drain the same survivors in different orders, so with tied push
times the drain is not a single well-defined sorted sequence shared by both
variants. -/
theorem claim_C4_cex :
    lazyDrain (fun n : ℕ => n) (runLazy (fun n : ℕ => n)
      [.push 1 0, .push 1 1, .push 1 2, .push 1 3, .remove 1]) ≠
    eagerDrain (fun n : ℕ => n) (runEager (fun n : ℕ => n)
      [.push 1 0, .push 1 1, .push 1 2, .push 1 3, .remove 1]) := by
  decide

theorem claim_C4_witness :
    ((∀ op ∈ ([.push 3 0, .push 1 1, .push 2 2, .remove 2] : List (Op ℕ ℕ)),
        isPushRemove op = true) ∧
      (pushTimes ([.push 3 0, .push 1 1, .push 2 2, .remove 2]
        : List (Op ℕ ℕ))).Nodup) ∧
    (lazyDrain (fun n : ℕ => n) (runLazy (fun n : ℕ => n)
        [.push 3 0, .push 1 1, .push 2 2, .remove 2]) =
      eagerDrain (fun n : ℕ => n) (runEager (fun n : ℕ => n)
        [.push 3 0, .push 1 1, .push 2 2, .remove 2]) ∧
     (lazyDrain (fun n : ℕ => n) (runLazy (fun n : ℕ => n)
        [.push 3 0, .push 1 1, .push 2 2, .remove 2])).Perm
       (survivors (fun n : ℕ => n) [.push 3 0, .push 1 1, .push 2 2, .remove 2]) ∧
     List.Pairwise (fun a b : ℚ × ℕ => a.1 ≤ b.1)
       (lazyDrain (fun n : ℕ => n) (runLazy (fun n : ℕ => n)
         [.push 3 0, .push 1 1, .push 2 2, .remove 2]))) :=
  ⟨⟨by decide, by decide⟩, claim_C4 (fun n : ℕ => n)
    [.push 3 0, .push 1 1, .push 2 2, .remove 2] (by decide) (by decide)⟩

end Claims

end HashQueue
